import Mathlib

/-!
# Thread pool (`thpool.c`): task queue, binary semaphore and worker loop

A shallow embedding of `src/thpool.c` and `src/thpool.h`.

* A pointer is an `Option Nat`: `none` is `NULL`, `some a` is the address `a`.
  Every address holds a task record (`Heap`), so a non-null task pointer can
  always be dereferenced; dereferencing `NULL` is undefined behaviour and is
  the `none` result of the operation that does it.
* C `int` fields are `Int`. The counters only move by one per call and the
  development never relies on wrap-around: `len` reaching `INT_MAX` needs
  2^31 live task records and is undefined behaviour in C.
* The mutexes make each queue, semaphore and counter operation atomic, so
  each is one function on the state. Blocking calls (`bsem_wait`,
  `thpool_wait`) return `none` in a state in which they cannot return.
* Observable effects that have no state of their own in C (`free`, a handler
  call) are recorded in an event trace.
* `threads_keepalive` and `threads_on_hold` are file-scope, shared by every
  pool of the process: the writes to them by calls on any pool are steps of
  the system, next to the steps of the one pool that is modelled.
* Real time is left out: the pauses of `thpool_destroy` (`sleep`, the grace
  period) only space its polls, which are modelled by a schedule of what the
  other threads do in between.
-/

namespace Thpool

/-! ## Memory -/

/-- The record `struct task` of `thpool.h`; a function pointer is the identifier
of the function, `none` when it is `NULL`. -/
structure task where
  prev : Option Nat
  handler : Option Nat
  result_cb : Option Nat
  cleanup_cb : Option Nat
  user_data : Option Nat
deriving DecidableEq

/-- The task records in memory, by address. -/
abbrev Heap := Nat → task

/-- The assignment `a->prev = p`. -/
def set_prev (h : Heap) (a : Nat) (p : Option Nat) : Heap :=
  fun x => if x = a then { h a with prev := p } else h x

/-- Observable effects of the engine. -/
inductive Event where
  | pushed (t : Nat)          -- task_queue_push returned 0 for task t
  | pulled (p : Option Nat)   -- task_queue_pull returned p
  | call (t : Nat) (f : Nat)  -- task_p->handler(task_p) entered, handler f
  | ret (t : Nat)             -- the handler of task t returned
  | freed (t : Nat)           -- free(t) on a non-null task pointer
deriving DecidableEq

/-- The call `free(p)` on a task pointer: `free(NULL)` does nothing. The call
is recorded in the trace only; the record stays in `Heap`, so the model is
exact only for runs that do not use a record after it was freed, such as
those in which no task is pushed twice. -/
def free (p : Option Nat) (log : List Event) : List Event :=
  match p with
  | none => log
  | some a => log ++ [Event.freed a]

/-! ## Binary semaphore -/

/-- The record `struct bsem`: only the value; mutex and condition variable are
what makes each operation below atomic. -/
structure bsem where
  v : Int
deriving DecidableEq

/-- `bsem_init(bsem_p, value)`: `none` is `exit(1)`, otherwise the initialised
semaphore. -/
def bsem_init (value : Int) : Option bsem :=
  if value < 0 ∨ value > 1 then none else some { v := value }

/-- `bsem_reset(bsem_p)` is `bsem_init(bsem_p, 0)`. -/
def bsem_reset (_bsem_p : bsem) : Option bsem :=
  bsem_init 0

/-- `bsem_post(bsem_p)`: sets the value to 1 (and signals one waiter). -/
def bsem_post (bsem_p : bsem) : bsem :=
  { bsem_p with v := 1 }

/-- `bsem_post_all(bsem_p)`: sets the value to 1 (and wakes every waiter). -/
def bsem_post_all (bsem_p : bsem) : bsem :=
  { bsem_p with v := 1 }

/-- `bsem_wait(bsem_p)`: the caller stays in the wait loop while `v != 1`
(`none`); it returns after setting `v = 0`. -/
def bsem_wait (bsem_p : bsem) : Option bsem :=
  if bsem_p.v ≠ 1 then none else some { bsem_p with v := 0 }

/-! ## Task queue -/

/-- The record `struct task_queue`; `has_tasks` is the semaphore the field
points to. -/
structure task_queue where
  front : Option Nat
  rear : Option Nat
  has_tasks : bsem
  len : Int
deriving DecidableEq

/-- `task_queue_init(task_queue_p)`; `malloc_ok` says whether the allocation of
the semaphore succeeds. The result is the return value and, on success, the
initialised queue (`none` also when `bsem_init` exits). -/
def task_queue_init (malloc_ok : Bool) : Option (Int × Option task_queue) :=
  if malloc_ok = false then some (-1, none)
  else
    match bsem_init 0 with
    | none => none
    | some b => some (0, some { front := none, rear := none, has_tasks := b, len := 0 })

/-- `task_queue_push(task_queue_p, newtask)`: return value, queue and memory
after the call; `none` when `rear` is `NULL` in the branch that writes
`rear->prev`. -/
def task_queue_push (q : task_queue) (h : Heap) (newtask : Nat) :
    Option (Int × task_queue × Heap) :=
  if (h newtask).handler = none then some (-1, q, h)
  else
    let h1 := set_prev h newtask none
    if q.len = 0 then
      some (0, { q with front := some newtask, rear := some newtask, len := q.len + 1,
                        has_tasks := bsem_post q.has_tasks }, h1)
    else
      match q.rear with
      | none => none
      | some r =>
        some (0, { q with rear := some newtask, len := q.len + 1,
                          has_tasks := bsem_post q.has_tasks }, set_prev h1 r (some newtask))

/-- `task_queue_pull(task_queue_p)`: returned task pointer and queue after the
call; `none` when `front` is `NULL` in the branch that reads `task_p->prev`. -/
def task_queue_pull (q : task_queue) (h : Heap) : Option (Option Nat × task_queue) :=
  let task_p := q.front
  if q.len = 0 then some (task_p, q)
  else if q.len = 1 then some (task_p, { q with front := none, rear := none, len := 0 })
  else
    match task_p with
    | none => none
    | some a =>
      some (task_p, { q with front := (h a).prev, len := q.len - 1,
                             has_tasks := bsem_post q.has_tasks })

/-- The loop `while (len) free(task_queue_pull(q))` of `task_queue_clear`, at most
`fuel` iterations (`none` when they do not suffice or a pull is undefined). -/
def clear_loop : Nat → task_queue → Heap → List Event → Option (task_queue × List Event)
  | 0, q, _, log => if q.len = 0 then some (q, log) else none
  | n + 1, q, h, log =>
    if q.len = 0 then some (q, log)
    else
      match task_queue_pull q h with
      | none => none
      | some (p, q1) => clear_loop n q1 h (free p (log ++ [Event.pulled p]))

/-- `task_queue_clear(task_queue_p)`: queue and trace after the call. -/
def task_queue_clear (fuel : Nat) (q : task_queue) (h : Heap) (log : List Event) :
    Option (task_queue × List Event) :=
  match clear_loop fuel q h log with
  | none => none
  | some (q1, log1) =>
    match bsem_reset q1.has_tasks with
    | none => none
    | some b => some ({ front := none, rear := none, has_tasks := b, len := 0 }, log1)

/-! ## The tasks linked in the queue -/

/-- The tasks met from `cur` following `prev`, up to and including the first
occurrence of `rear`; at most `fuel` tasks are visited, and `none` when `rear`
is not met among them. -/
def walk (h : Heap) (rear : Nat) : Nat → Option Nat → Option (List Nat)
  | 0, _ => none
  | _ + 1, none => none
  | n + 1, some a =>
    if a = rear then some [a] else (walk h rear n (h a).prev).map (fun ys => a :: ys)

/-- The tasks linked from `front` via `prev` up to `rear`, looking at no more
than `len` of them: empty when both ends are `NULL`, undefined when only one
is or `rear` is not among the first `len` tasks. -/
def queued (h : Heap) (q : task_queue) : Option (List Nat) :=
  match q.front, q.rear with
  | none, none => some []
  | some f, some r => walk h r q.len.toNat (some f)
  | _, _ => none

/-- Queue well-formedness: `len` is non-negative and equals the number of tasks
linked from `front` via `prev` up to `rear`, and `front` and `rear` are both
`NULL` exactly when `len` is 0. -/
def WF (h : Heap) (q : task_queue) : Prop :=
  0 ≤ q.len ∧ (queued h q).map List.length = some q.len.toNat ∧
    ((q.front = none ∧ q.rear = none) ↔ q.len = 0)

instance (h : Heap) (q : task_queue) : Decidable (WF h q) := by
  unfold WF; infer_instance

/-! ## Sequential use of the queue -/

/-- A call on the queue: `task_queue_push(q, t)` or `task_queue_pull(q)`. -/
inductive QOp where
  | push (t : Nat)
  | pull
deriving DecidableEq

/-- The tasks pushed by a sequence of calls, in call order. -/
def pushes : List QOp → List Nat
  | [] => []
  | QOp.push t :: ops => t :: pushes ops
  | QOp.pull :: ops => pushes ops

/-- Runs the calls in order from queue `q` and memory `h`; the result is the
final queue and memory and what each pull returned, in call order. `none`
when a call is undefined. -/
def run_ops : List QOp → task_queue → Heap → Option (task_queue × Heap × List (Option Nat))
  | [], q, h => some (q, h, [])
  | QOp.push t :: ops, q, h =>
    match task_queue_push q h t with
    | none => none
    | some (_, q1, h1) => run_ops ops q1 h1
  | QOp.pull :: ops, q, h =>
    match task_queue_pull q h with
    | none => none
    | some (p, q1) =>
      match run_ops ops q1 h with
      | none => none
      | some (q2, h2, rs) => some (q2, h2, p :: rs)

/-! ## Workers and pool -/

/-- Where a worker stands in `thread_do`. -/
inductive Pc where
  | start                  -- created, before num_threads_alive += 1
  | loop_top               -- at while (threads_keepalive)
  | wait                   -- inside bsem_wait
  | woke                   -- bsem_wait returned, at if (threads_keepalive)
  | count                  -- before num_threads_working++
  | pull                   -- before task_queue_pull
  | got (p : Option Nat)   -- task_p = p, at if (task_p)
  | run (t : Nat)          -- inside task_p->handler(task_p)
  | free (t : Nat)         -- before free(task_p)
  | uncount                -- before num_threads_working--
  | leave                  -- loop left, before num_threads_alive--
  | dead                   -- thread_do returned
deriving DecidableEq

/-- The record `struct thpool_`; `threads` holds, for each worker thread, where
its `thread_do` stands. -/
structure thpool_ where
  threads : List Pc
  num_threads_alive : Int
  num_threads_working : Int
  task_queue : task_queue

/-- The pool with the two file-scope flags, the task memory and the trace. -/
structure Sys where
  pool : thpool_
  threads_keepalive : Int
  threads_on_hold : Int
  mem : Heap
  log : List Event

/-- Worker `i` continues at `pc`. -/
def goto (s : Sys) (i : Nat) (pc : Pc) : Sys :=
  { s with pool := { s.pool with threads := s.pool.threads.set i pc } }

/-- The next atomic step of worker `i` in `thread_do`; `none` when the worker
cannot move (blocked in `bsem_wait`, returned, or no such worker) or the step
is undefined. -/
def thread_do (s : Sys) (i : Nat) : Option Sys :=
  match s.pool.threads[i]? with
  | none => none
  | some Pc.start =>
    some (goto { s with pool := { s.pool with
      num_threads_alive := s.pool.num_threads_alive + 1 } } i Pc.loop_top)
  | some Pc.loop_top =>
    if s.threads_keepalive ≠ 0 then some (goto s i Pc.wait) else some (goto s i Pc.leave)
  | some Pc.wait =>
    match bsem_wait s.pool.task_queue.has_tasks with
    | none => none
    | some b =>
      some (goto { s with pool := { s.pool with
        task_queue := { s.pool.task_queue with has_tasks := b } } } i Pc.woke)
  | some Pc.woke =>
    if s.threads_keepalive ≠ 0 then some (goto s i Pc.count) else some (goto s i Pc.loop_top)
  | some Pc.count =>
    some (goto { s with pool := { s.pool with
      num_threads_working := s.pool.num_threads_working + 1 } } i Pc.pull)
  | some Pc.pull =>
    match task_queue_pull s.pool.task_queue s.mem with
    | none => none
    | some (p, q1) => some (goto { s with pool := { s.pool with task_queue := q1 } } i (Pc.got p))
  | some (Pc.got none) => some (goto s i Pc.uncount)
  | some (Pc.got (some t)) =>
    match (s.mem t).handler with
    | some f => some (goto { s with log := s.log ++ [Event.call t f] } i (Pc.run t))
    | none => some (goto s i (Pc.free t))
  | some (Pc.run t) => some (goto { s with log := s.log ++ [Event.ret t] } i (Pc.free t))
  | some (Pc.free t) => some (goto { s with log := free (some t) s.log } i Pc.uncount)
  | some Pc.uncount =>
    some (goto { s with pool := { s.pool with
      num_threads_working := s.pool.num_threads_working - 1 } } i Pc.loop_top)
  | some Pc.leave =>
    some (goto { s with pool := { s.pool with
      num_threads_alive := s.pool.num_threads_alive - 1 } } i Pc.dead)
  | some Pc.dead => none

/-- `thpool_wait(thpool_p)`: the caller stays in the wait loop while
`task_queue.len || num_threads_working` (`none`); otherwise it returns, the
state unchanged. -/
def thpool_wait (s : Sys) : Option Sys :=
  if s.pool.task_queue.len ≠ 0 ∨ s.pool.num_threads_working ≠ 0 then none else some s

/-- An atomic step of the system: a producer's `task_queue_push`; a step of a
worker; a `bsem_post_all` of `thpool_destroy` on this pool's semaphore; and
the writes of the two file-scope flags, by any thread of the process:
`threads_keepalive = 0` of a `thpool_destroy` (`stop`), `threads_keepalive = 1`
of a `thpool_init` (`keepalive_on`), `threads_on_hold = 1` of `thread_hold`
(`hold_on`), `threads_on_hold = 0` of a `thpool_init` or of `thpool_resume`
(`hold_off`). The flags are shared by all pools of the process, so these
writes may be those of calls on another pool. -/
inductive Action where
  | push (t : Nat)
  | worker (i : Nat)
  | stop
  | post_all
  | keepalive_on
  | hold_on
  | hold_off
deriving DecidableEq

/-- One step; `none` when the step is not possible or undefined. -/
def step (s : Sys) : Action → Option Sys
  | Action.push t =>
    match task_queue_push s.pool.task_queue s.mem t with
    | none => none
    | some (r, q1, h1) =>
      some { s with pool := { s.pool with task_queue := q1 }, mem := h1,
                    log := if r = 0 then s.log ++ [Event.pushed t] else s.log }
  | Action.worker i => thread_do s i
  | Action.stop => some { s with threads_keepalive := 0 }
  | Action.post_all =>
    some { s with pool := { s.pool with task_queue :=
      { s.pool.task_queue with has_tasks := bsem_post_all s.pool.task_queue.has_tasks } } }
  | Action.keepalive_on => some { s with threads_keepalive := 1 }
  | Action.hold_on => some { s with threads_on_hold := 1 }
  | Action.hold_off => some { s with threads_on_hold := 0 }

/-- Runs the steps in order. -/
def run : List Action → Sys → Option Sys
  | [], s => some s
  | a :: acts, s =>
    match step s a with
    | none => none
    | some s1 => run acts s1

/-- The state `thpool_init(num_threads)` is in once its loop has created the
worker threads (all allocations succeeding), memory being `h`. -/
def spawned (num_threads : Int) (h : Heap) : Sys :=
  { pool := { threads := List.replicate (if num_threads < 0 then 0 else num_threads).toNat Pc.start,
              num_threads_alive := 0, num_threads_working := 0,
              task_queue := { front := none, rear := none, has_tasks := { v := 0 }, len := 0 } },
    threads_keepalive := 1, threads_on_hold := 0, mem := h, log := [] }

/-- The states the pool of `thpool_init(num_threads)` can be in. -/
def Reachable (num_threads : Int) (h : Heap) (s : Sys) : Prop :=
  ∃ acts, run acts (spawned num_threads h) = some s

/-- The tasks a trace records as pushed, in order. -/
def pushed_of : List Event → List Nat
  | [] => []
  | Event.pushed t :: es => t :: pushed_of es
  | _ :: es => pushed_of es

/-- The tasks a trace records as passed to their handler, in order. -/
def called_of : List Event → List Nat
  | [] => []
  | Event.call t _ :: es => t :: called_of es
  | _ :: es => called_of es

/-- The tasks whose handler a trace records as having returned, in order. -/
def returned_of : List Event → List Nat
  | [] => []
  | Event.ret t :: es => t :: returned_of es
  | _ :: es => returned_of es

/-- The tasks a trace records as freed, in order. -/
def freed_of : List Event → List Nat
  | [] => []
  | Event.freed t :: es => t :: freed_of es
  | _ :: es => freed_of es

/-- The results of the pulls a trace records, in order. -/
def pulled_of : List Event → List (Option Nat)
  | [] => []
  | Event.pulled p :: es => p :: pulled_of es
  | _ :: es => pulled_of es

/-- The tasks an action sequence pushes, in order. -/
def push_args : List Action → List Nat
  | [] => []
  | Action.push t :: acts => t :: push_args acts
  | _ :: acts => push_args acts

/-- Whether a worker at `pc` is counted in `num_threads_working`. -/
def is_working : Pc → Nat
  | Pc.pull => 1
  | Pc.got _ => 1
  | Pc.run _ => 1
  | Pc.free _ => 1
  | Pc.uncount => 1
  | _ => 0

/-- Whether a worker at `pc` is counted in `num_threads_alive`. -/
def is_alive : Pc → Nat
  | Pc.start => 0
  | Pc.dead => 0
  | _ => 1

/-- Whether a worker at `pc` is executing a handler. -/
def is_running : Pc → Nat
  | Pc.run _ => 1
  | _ => 0

/-- The task a worker at `pc` has pulled and whose handler has not returned yet. -/
def holding : Pc → List Nat
  | Pc.got (some t) => [t]
  | Pc.run t => [t]
  | _ => []

/-- A memory in which every task has handler `7` and no link. -/
def heap0 : Heap := fun _ =>
  { prev := none, handler := some 7, result_cb := none, cleanup_cb := none, user_data := none }

/-- A memory in which task 1 links to 2 and 2 to 3, every task with handler `7`. -/
def mem3 : Heap := fun a =>
  { prev := if a = 1 then some 2 else if a = 2 then some 3 else none,
    handler := some 7, result_cb := none, cleanup_cb := none, user_data := none }

/-- The queue of the tasks 1, 2, 3 (in `mem3`), semaphore at 0. -/
def queue3 : task_queue := { front := some 1, rear := some 3, has_tasks := { v := 0 }, len := 3 }

/-- The queue of the tasks 1, 2 (in `mem3`), semaphore at 0. -/
def queue2 : task_queue := { front := some 1, rear := some 2, has_tasks := { v := 0 }, len := 2 }

/-- The trace of draining the tasks `xs`: each is pulled, then freed. -/
def drain_trace : List Nat → List Event
  | [] => []
  | a :: xs => Event.pulled (some a) :: Event.freed a :: drain_trace xs

/-- The queue holds exactly the tasks `xs`, front first. -/
def Holds (h : Heap) (q : task_queue) (xs : List Nat) : Prop :=
  queued h q = some xs ∧ (xs.length : Int) = q.len

/-- What holds of the queue whatever is pushed: `len` is not negative, and
both ends are `NULL` when it is 0. -/
def Sane (q : task_queue) : Prop :=
  0 ≤ q.len ∧ (q.len = 0 → q.front = none ∧ q.rear = none)

/-- The counters agree with where the workers stand: `num_threads_working` is
the number of workers between their `num_threads_working++` and
`num_threads_working--`, `num_threads_alive` the number of workers between
their `num_threads_alive += 1` and `num_threads_alive--`. -/
def Counted (s : Sys) : Prop :=
  s.pool.num_threads_working = ((s.pool.threads.map is_working).sum : Nat) ∧
  s.pool.num_threads_alive = ((s.pool.threads.map is_alive).sum : Nat)

/-- The task whose handler a worker at `pc` is executing. -/
def inside : Pc → List Nat
  | Pc.run t => [t]
  | _ => []

/-- The tasks the workers have pulled and whose handler has not returned yet. -/
def held (l : List Pc) : Multiset Nat :=
  (l.map (fun pc => (holding pc : Multiset Nat))).sum

/-- The tasks whose handler the workers are executing. -/
def executing (l : List Pc) : Multiset Nat :=
  (l.map (fun pc => (inside pc : Multiset Nat))).sum

/-- Bookkeeping of the tasks, `h0` being the memory the pool started with and
`xs` the tasks the queue holds: handlers are never written; every pushed task
has a handler and is either queued, held by a worker, or its handler has
returned; every task passed to its handler is being executed or its handler
has returned; and a handler call is a call of the handler of the task. -/
def Tracked (h0 : Heap) (s : Sys) (xs : List Nat) : Prop :=
  Holds s.mem s.pool.task_queue xs ∧
  (∀ x, (s.mem x).handler = (h0 x).handler) ∧
  (∀ t ∈ pushed_of s.log, (h0 t).handler ≠ none) ∧
  (pushed_of s.log : Multiset Nat) = ↑(returned_of s.log) + held s.pool.threads + ↑xs ∧
  (called_of s.log : Multiset Nat) = ↑(returned_of s.log) + executing s.pool.threads ∧
  (∀ t f, Event.call t f ∈ s.log → (h0 t).handler = some f)

/-- One worker runs a pushed task 3 to completion: start, the push, then the
worker from the loop top to the loop top again. -/
def cycle_acts : List Action :=
  [Action.worker 0, Action.push 3, Action.worker 0, Action.worker 0, Action.worker 0,
   Action.worker 0, Action.worker 0, Action.worker 0, Action.worker 0, Action.worker 0,
   Action.worker 0]

/-- Worker 0 of two starts, task 3 is pushed, worker 0 goes on until it is
inside the handler of task 3. -/
def busy_acts : List Action :=
  [Action.worker 0, Action.push 3, Action.worker 0, Action.worker 0, Action.worker 0,
   Action.worker 0, Action.worker 0, Action.worker 0]

/-- Worker 0 starts; task 1 is pushed twice, then task 2; worker 0 then goes
three times round its loop (9, 9 and 7 steps). -/
def dup_acts : List Action :=
  [Action.worker 0, Action.push 1, Action.push 1, Action.push 2] ++
    List.replicate 25 (Action.worker 0)

/-- Whether a worker at `pc` has returned from `bsem_wait` and has not yet done
the `task_queue_pull` of that loop iteration. -/
def is_woken : Pc → Nat
  | Pc.woke => 1
  | Pc.count => 1
  | Pc.pull => 1
  | _ => 0

/-- No wake-up is lost: when the queue length is positive, the semaphore is at
1 or some worker has returned from `bsem_wait` and not yet pulled. -/
def Awake (s : Sys) : Prop :=
  0 < s.pool.task_queue.len →
    s.pool.task_queue.has_tasks.v = 1 ∨ 1 ≤ (s.pool.threads.map is_woken).sum

/-- Worker 0 starts, task 3 is pushed, worker 0 reaches `bsem_wait` and returns
from it. -/
def wake_acts : List Action :=
  [Action.worker 0, Action.push 3, Action.worker 0, Action.worker 0]

/-- The steps worker `i` takes in a run from `s`, in order: for each step,
where the worker stood and the value of the keep-alive flag at that moment. -/
def history (i : Nat) : List Action → Sys → List (Pc × Int)
  | [], _ => []
  | a :: acts, s =>
    match step s a with
    | none => []
    | some s1 =>
      (match a, s.pool.threads[i]? with
        | Action.worker j, some pc => if j = i then [(pc, s.threads_keepalive)] else []
        | _, _ => []) ++ history i acts s1

/-- What the step `a` of a worker (where it stood, the keep-alive flag then)
must have been for the worker to stand at `pc1` after it. -/
def came_from (a : Pc × Int) (pc1 : Pc) : Prop :=
  match pc1 with
  | Pc.woke => a.1 = Pc.wait
  | Pc.count => a.1 = Pc.woke ∧ a.2 ≠ 0
  | Pc.pull => a.1 = Pc.count
  | Pc.got _ => a.1 = Pc.pull
  | Pc.run t => a.1 = Pc.got (some t)
  | _ => True

/-- A list of steps of one worker standing at `pc`: the first step is taken at
`pc`, and each step is taken where the one before led. -/
def chained : Pc → List (Pc × Int) → Prop
  | _, [] => True
  | pc, x :: xs => x.1 = pc ∧ ∃ pc1, came_from x pc1 ∧ chained pc1 xs

/-- The steps left to a worker standing at `pc` once the keep-alive flag is 0
and stays 0, for a worker that has returned from `bsem_wait` or left the loop. -/
def stop_trail : Pc → List (Pc × Int)
  | Pc.woke => [(Pc.woke, 0), (Pc.loop_top, 0), (Pc.leave, 0)]
  | Pc.loop_top => [(Pc.loop_top, 0), (Pc.leave, 0)]
  | Pc.leave => [(Pc.leave, 0)]
  | _ => []

/-- Worker 0 starts and reaches `bsem_wait`; `thpool_destroy` clears the
keep-alive flag and posts to all; worker 0 returns from `bsem_wait`. -/
def stop_acts : List Action :=
  [Action.worker 0, Action.worker 0, Action.stop, Action.post_all, Action.worker 0]

/-- After `stop_acts`, worker 0 finds the keep-alive flag at 0 in the check
after the wait; a `thpool_init` then sets the flag; worker 0 reads it at the
top of the loop. -/
def revive_acts : List Action :=
  stop_acts ++ [Action.worker 0, Action.keepalive_on, Action.worker 0]

/-- `thread_init(thpool_p, &threads[n], n)`: the return value and the worker
thread it creates, none when the allocation of the thread record fails. -/
def thread_init (malloc_ok : Bool) : Int × List Pc :=
  if malloc_ok = false then (-1, []) else (0, [Pc.start])

/-- The loop `for (n = 0; n < num_threads; n++) thread_init(...)` of
`thpool_init` with `k` iterations left, the next being iteration `n`: the
worker threads created, `malloc_thread n` saying whether the allocation in
iteration `n` succeeds. -/
def create_threads (malloc_thread : Nat → Bool) : Nat → Nat → List Pc
  | 0, _ => []
  | k + 1, n => (thread_init (malloc_thread n)).2 ++ create_threads malloc_thread k (n + 1)

/-- `thpool_init(num_threads)` up to the end of the loop that creates the
worker threads, `h` being the task memory and the flags saying which
allocations succeed: the state of the system then, or `none` when
`thpool_init` returns `NULL` (the two file-scope flags are assigned all the
same). -/
def thpool_init_spawn (num_threads : Int) (h : Heap) (malloc_pool malloc_sem malloc_threads : Bool)
    (malloc_thread : Nat → Bool) : Option Sys :=
  let num_threads := if num_threads < 0 then 0 else num_threads
  if malloc_pool = false then none
  else
    match task_queue_init malloc_sem with
    | some (0, some q) =>
      if malloc_threads = false then none
      else
        some { pool := { threads := create_threads malloc_thread num_threads.toNat 0,
                         num_threads_alive := 0, num_threads_working := 0, task_queue := q },
               threads_keepalive := 1, threads_on_hold := 0, mem := h, log := [] }
    | _ => none

/-- The end of `thpool_init(num_threads)`: the caller stays in the loop
`while (num_threads_alive != num_threads)` (`none`) and otherwise returns the
pool, the state unchanged. -/
def thpool_init_return (num_threads : Int) (s : Sys) : Option Sys :=
  let num_threads := if num_threads < 0 then 0 else num_threads
  if s.pool.num_threads_alive ≠ num_threads then none else some s

/-- The steps that can be taken while `thpool_init` has not returned: nobody
else has the pool yet, so nothing is pushed and the pool is not destroyed; its
workers run, and other threads may write the two file-scope flags. -/
def init_step : Action → Bool
  | Action.push _ => false
  | Action.post_all => false
  | _ => true

/-- What holds of the pool while `thpool_init` has not returned: nothing is
queued or traced, the semaphore is at 0, no worker is working, and every
worker is before its `num_threads_alive += 1`, at the top of its loop, inside
`bsem_wait`, or has left the loop. -/
def Starting (s : Sys) : Prop :=
  s.pool.num_threads_working = 0 ∧
  s.pool.task_queue = { front := none, rear := none, has_tasks := { v := 0 }, len := 0 } ∧
  s.log = [] ∧
  ∀ pc ∈ s.pool.threads,
    pc = Pc.start ∨ pc = Pc.loop_top ∨ pc = Pc.wait ∨ pc = Pc.leave ∨ pc = Pc.dead

/-- `task_queue_destroy(task_queue_p)`: `task_queue_clear`, then the semaphore
is freed, which leaves nothing in the state. -/
def task_queue_destroy (fuel : Nat) (q : task_queue) (h : Heap) (log : List Event) :
    Option (task_queue × List Event) :=
  task_queue_clear fuel q h log

/-- The two polling loops of `thpool_destroy`, which differ in how long they
pause only: while `num_threads_alive` is not 0, `bsem_post_all` and look
again. The schedule gives what the other threads do before each look; `none`
when the schedule is used up, or not possible, with workers still alive. -/
def destroy_poll : List (List Action) → Sys → Option Sys
  | [], s => if s.pool.num_threads_alive ≠ 0 then none else some s
  | acts :: sched, s =>
    match run acts s with
    | none => none
    | some s1 =>
      if s1.pool.num_threads_alive ≠ 0 then
        destroy_poll sched { s1 with pool := { s1.pool with task_queue :=
          { s1.pool.task_queue with
            has_tasks := bsem_post_all s1.pool.task_queue.has_tasks } } }
      else some s1

/-- `thpool_destroy(thpool_p)`; the handle `thpool_p` is `NULL` (`none`) or
points to the pool of the state. With `NULL` it returns at once. Otherwise it
clears the keep-alive flag, polls until no worker is alive and destroys the
queue; freeing the thread records and the pool leaves nothing in the state. -/
def thpool_destroy (thpool_p : Option Unit) (sched : List (List Action)) (s : Sys) :
    Option Sys :=
  match thpool_p with
  | none => some s
  | some _ =>
    match destroy_poll sched { s with threads_keepalive := 0 } with
    | none => none
    | some s1 =>
      match task_queue_destroy s1.pool.task_queue.len.toNat s1.pool.task_queue s1.mem s1.log with
      | none => none
      | some (q, log) => some { s1 with pool := { s1.pool with task_queue := q }, log := log }

/-- A schedule for `thpool_destroy` on a pool of one worker inside `bsem_wait`:
task 3 is pushed, then the worker, woken by the post to all, leaves. -/
def destroy_sched : List (List Action) :=
  [[Action.push 3],
   [Action.worker 0, Action.worker 0, Action.worker 0, Action.worker 0]]

/-! ## Lemmas on the linked tasks -/

theorem set_prev_handler (h : Heap) (a : Nat) (p : Option Nat) (x : Nat) :
    (set_prev h a p x).handler = (h x).handler := by
  unfold set_prev; split <;> simp_all

theorem set_prev_prev_of_ne (h : Heap) (a : Nat) (p : Option Nat) (x : Nat) (hx : x ≠ a) :
    (set_prev h a p x).prev = (h x).prev := by
  unfold set_prev; simp [hx]

theorem set_prev_prev_self (h : Heap) (a : Nat) (p : Option Nat) :
    (set_prev h a p a).prev = p := by
  unfold set_prev; simp

theorem walk_length (h : Heap) (r : Nat) :
    ∀ (n : Nat) (c : Option Nat) (xs : List Nat), walk h r n c = some xs →
      0 < xs.length ∧ xs.length ≤ n := by
  intro n
  induction n with
  | zero => intro c xs hw; simp [walk] at hw
  | succ n ih =>
    intro c xs hw
    cases c with
    | none => simp [walk] at hw
    | some a =>
      simp only [walk] at hw
      split at hw
      · simp at hw; subst hw; simp
      · cases hrec : walk h r n (h a).prev with
        | none => simp [hrec] at hw
        | some ys =>
          simp [hrec] at hw; subst hw
          have := ih _ _ hrec
          simp; omega

/-- Appending at the rear: when `r` gets `t` as its `prev` and the other tasks
on the way keep theirs, the walk to the new rear `t` is the old one followed
by `t`. -/
theorem walk_snoc (h h1 : Heap) (r t : Nat) (hr : (h1 r).prev = some t) :
    ∀ (n : Nat) (a : Nat) (xs : List Nat), walk h r n (some a) = some xs → t ∉ xs →
      (∀ x ∈ xs, x ≠ r → (h1 x).prev = (h x).prev) →
      walk h1 t (n + 1) (some a) = some (xs ++ [t]) := by
  intro n
  induction n with
  | zero => intro a xs hw; simp [walk] at hw
  | succ n ih =>
    intro a xs hw ht hsame
    simp only [walk] at hw
    split at hw
    · rename_i har
      simp at hw; subst hw
      have hat : a ≠ t := by
        intro e; apply ht; simp [e]
      subst har
      simp [walk, hat, hr]
    · rename_i har
      cases hrec : walk h r n (h a).prev with
      | none => simp [hrec] at hw
      | some ys =>
        simp [hrec] at hw; subst hw
        have hat : a ≠ t := by
          intro e; apply ht; simp [e]
        cases hp : (h a).prev with
        | none =>
          rw [hp] at hrec
          cases n <;> simp [walk] at hrec
        | some b =>
          rw [hp] at hrec
          have h1a : (h1 a).prev = some b := by
            rw [hsame a (by simp) har, hp]
          have := ih b ys hrec (fun hm => ht (by simp [hm]))
            (fun x hx hxr => hsame x (by simp [hx]) hxr)
          rw [walk]
          simp [hat, h1a, this]

/-- The first task of a walk is where it starts; past it the walk continues
from its `prev` with one unit of fuel less. -/
theorem walk_cons (h : Heap) (r : Nat) (n : Nat) (c : Option Nat) (xs : List Nat)
    (hw : walk h r n c = some xs) :
    ∃ a ys, c = some a ∧ xs = a :: ys ∧
      ((a = r ∧ ys = []) ∨ (a ≠ r ∧ ∃ m, n = m + 1 ∧ walk h r m (h a).prev = some ys)) := by
  cases n with
  | zero => simp [walk] at hw
  | succ n =>
    cases c with
    | none => simp [walk] at hw
    | some a =>
      simp only [walk] at hw
      split at hw
      · rename_i har
        simp at hw; subst hw
        exact ⟨a, [], rfl, rfl, Or.inl ⟨har, rfl⟩⟩
      · rename_i har
        cases hrec : walk h r n (h a).prev with
        | none => simp [hrec] at hw
        | some ys =>
          simp [hrec] at hw; subst hw
          exact ⟨a, ys, rfl, rfl, Or.inr ⟨har, n, rfl, hrec⟩⟩

/-- The result of a walk does not depend on the fuel. -/
theorem walk_unique (h : Heap) (r : Nat) :
    ∀ (n m : Nat) (c : Option Nat) (xs ys : List Nat),
      walk h r n c = some xs → walk h r m c = some ys → xs = ys := by
  intro n
  induction n with
  | zero => intro m c xs ys hw; simp [walk] at hw
  | succ n ih =>
    intro m c xs ys hx hy
    obtain ⟨a, xs1, hc, hxs, hcase⟩ := walk_cons h r _ c xs hx
    obtain ⟨b, ys1, hc2, hys, hcase2⟩ := walk_cons h r _ c ys hy
    subst hc
    cases hc2
    rcases hcase with ⟨har, hnil⟩ | ⟨har, k, hk, hrec⟩
    · rcases hcase2 with ⟨_, hnil2⟩ | ⟨har2, _⟩
      · rw [hxs, hys, hnil, hnil2]
      · exact absurd har har2
    · rcases hcase2 with ⟨har2, _⟩ | ⟨_, k2, hk2, hrec2⟩
      · exact absurd har2 har
      · have hkn : k = n := by omega
        subst hkn
        rw [hxs, hys, ih k2 _ xs1 ys1 hrec hrec2]

/-- From a task met on a walk, the walk to `rear` is no longer than the one
it lies on. -/
theorem walk_suffix (h : Heap) (r : Nat) :
    ∀ (n : Nat) (c : Option Nat) (xs : List Nat) (a : Nat), walk h r n c = some xs → a ∈ xs →
      ∃ k zs, walk h r k (some a) = some zs ∧ zs.length ≤ xs.length := by
  intro n
  induction n with
  | zero => intro c xs a hw; simp [walk] at hw
  | succ n ih =>
    intro c xs a hw ha
    obtain ⟨b, ys, hc, hxs, hcase⟩ := walk_cons h r _ c xs hw
    subst hc
    by_cases hab : a = b
    · subst hab
      exact ⟨n + 1, xs, hw, le_refl _⟩
    · rcases hcase with ⟨_, hnil⟩ | ⟨_, k, hk, hrec⟩
      · subst hnil; subst hxs; simp at ha; exact absurd ha hab
      · have hkn : k = n := by omega
        subst hkn
        subst hxs
        have hmem : a ∈ ys := by
          simpa [hab] using ha
        obtain ⟨k2, zs, hz, hlen⟩ := ih _ ys a hrec hmem
        exact ⟨k2, zs, hz, by simp; omega⟩

/-- No task occurs twice on a walk. -/
theorem walk_nodup (h : Heap) (r : Nat) :
    ∀ (n : Nat) (c : Option Nat) (xs : List Nat), walk h r n c = some xs → xs.Nodup := by
  intro n
  induction n with
  | zero => intro c xs hw; simp [walk] at hw
  | succ n ih =>
    intro c xs hw
    obtain ⟨b, ys, hc, hxs, hcase⟩ := walk_cons h r _ c xs hw
    subst hc
    rcases hcase with ⟨_, hnil⟩ | ⟨_, k, hk, hrec⟩
    · subst hnil; subst hxs; simp
    · have hkn : k = n := by omega
      subst hkn
      subst hxs
      refine List.nodup_cons.mpr ⟨?_, ih _ ys hrec⟩
      intro hmem
      obtain ⟨k2, zs, hz, hlen⟩ := walk_suffix h r _ _ ys b hrec hmem
      have := walk_unique h r _ _ _ _ _ hw hz
      subst this
      simp at hlen

theorem holds_shape (h : Heap) (q : task_queue) (xs : List Nat) (hq : Holds h q xs) :
    q.front = xs.head? ∧ (q.len = 0 ↔ xs = []) ∧ (q.front = none ↔ q.len = 0) ∧
      (q.rear = none ↔ q.len = 0) ∧ xs.Nodup := by
  obtain ⟨hqd, hlen⟩ := hq
  unfold queued at hqd
  split at hqd
  · rename_i hf hr
    simp at hqd; subst hqd
    simp at hlen
    simp [hf, hr, ← hlen]
  · rename_i f r hf hr
    obtain ⟨hpos, _⟩ := walk_length h r _ _ xs hqd
    obtain ⟨a, ys, hc, hxs, _⟩ := walk_cons h r _ _ xs hqd
    have hnd := walk_nodup h r _ _ xs hqd
    cases hc
    subst hxs
    have hne : q.len ≠ 0 := by
      intro e; rw [e] at hlen; simp at hlen; omega
    simp [hf, hr, hne, hnd]
  · simp at hqd

theorem wf_iff_holds (h : Heap) (q : task_queue) : WF h q ↔ ∃ xs, Holds h q xs := by
  constructor
  · rintro ⟨h0, hm, _⟩
    cases hqd : queued h q with
    | none => simp [hqd] at hm
    | some xs =>
      simp [hqd] at hm
      refine ⟨xs, hqd, ?_⟩
      omega
  · rintro ⟨xs, hq⟩
    obtain ⟨hf, he, hfn, hrn, _⟩ := holds_shape h q xs hq
    obtain ⟨hqd, hlen⟩ := hq
    refine ⟨by omega, ?_, ?_⟩
    · rw [hqd]; simp; omega
    · constructor
      · rintro ⟨h1, _⟩; exact hfn.mp h1
      · intro h1; exact ⟨hfn.mpr h1, hrn.mpr h1⟩

/-- A push of a task with a handler that is not linked in the queue succeeds
and appends the task at the rear. -/
theorem holds_push (h : Heap) (q : task_queue) (xs : List Nat) (t : Nat)
    (hq : Holds h q xs) (ht : t ∉ xs) (hh : (h t).handler ≠ none) :
    ∃ q1 h1, task_queue_push q h t = some (0, q1, h1) ∧ Holds h1 q1 (xs ++ [t]) ∧
      (∀ x, (h1 x).handler = (h x).handler) ∧ q1.has_tasks = bsem_post q.has_tasks ∧
      q1.len = q.len + 1 := by
  obtain ⟨hqd, hlen⟩ := hq
  unfold queued at hqd
  split at hqd
  · rename_i hf hr
    simp at hqd; subst hqd
    simp at hlen
    refine ⟨{ q with front := some t, rear := some t, len := q.len + 1,
                     has_tasks := bsem_post q.has_tasks }, set_prev h t none,
      by simp [task_queue_push, hh, ← hlen], ?_, ?_, rfl, rfl⟩
    · constructor
      · simp [queued, ← hlen, walk]
      · simp [← hlen]
    · intro x; exact set_prev_handler _ _ _ _
  · rename_i f r hf hr
    obtain ⟨hpos, _⟩ := walk_length h r _ _ xs hqd
    have hne : q.len ≠ 0 := by
      intro e; rw [e] at hlen; simp at hlen; omega
    refine ⟨{ q with rear := some t, len := q.len + 1, has_tasks := bsem_post q.has_tasks },
      set_prev (set_prev h t none) r (some t),
      by simp [task_queue_push, hh, hne, hr], ?_, ?_, rfl, rfl⟩
    · constructor
      · have hfuel : (q.len + 1).toNat = q.len.toNat + 1 := by omega
        simp only [queued, hf, hfuel]
        apply walk_snoc h _ r t (set_prev_prev_self _ _ _) _ _ _ hqd ht
        intro x hx hxr
        rw [set_prev_prev_of_ne _ _ _ _ hxr, set_prev_prev_of_ne]
        intro e; exact ht (e ▸ hx)
      · simp; omega
    · intro x; rw [set_prev_handler, set_prev_handler]
  · simp at hqd

/-- A pull on a queue holding `xs` returns the first of `xs` (`NULL` when there
is none) and leaves the rest; it posts the semaphore exactly when two or more
tasks were queued. -/
theorem holds_pull (h : Heap) (q : task_queue) (xs : List Nat) (hq : Holds h q xs) :
    ∃ q1, task_queue_pull q h = some (xs.head?, q1) ∧ Holds h q1 xs.tail ∧
      (2 ≤ q.len → q1.has_tasks = bsem_post q.has_tasks ∧ q1.len = q.len - 1) ∧
      (q.len ≤ 1 → q1.has_tasks = q.has_tasks ∧ q1.len = 0) ∧
      (q.len = 0 → q1 = q) := by
  obtain ⟨hqd, hlen⟩ := hq
  unfold queued at hqd
  split at hqd
  · rename_i hf hr
    simp at hqd; subst hqd
    simp at hlen
    refine ⟨q, by simp [task_queue_pull, ← hlen, hf], ?_, ?_, ?_, ?_⟩
    · constructor
      · simp [queued, hf, hr]
      · simpa using hlen
    · intro h2; omega
    · intro _; exact ⟨rfl, hlen.symm⟩
    · intro _; rfl
  · rename_i f r hf hr
    obtain ⟨a, ys, hc, hxs, hcase⟩ := walk_cons h r _ _ xs hqd
    cases hc
    subst hxs
    rcases hcase with ⟨_, hnil⟩ | ⟨har, m, hm, hrec⟩
    · subst hnil
      simp at hlen
      refine ⟨{ q with front := none, rear := none, len := 0 },
        by simp [task_queue_pull, ← hlen, hf], ?_, ?_, ?_, ?_⟩
      · constructor
        · simp [queued]
        · simp
      · intro h2; omega
      · intro _; exact ⟨rfl, rfl⟩
      · intro h0; omega
    · obtain ⟨hpos, hle⟩ := walk_length h r _ _ ys hrec
      simp at hlen
      have hne0 : q.len ≠ 0 := by omega
      have hne1 : q.len ≠ 1 := by omega
      refine ⟨{ q with front := (h f).prev, len := q.len - 1, has_tasks := bsem_post q.has_tasks },
        by simp [task_queue_pull, hne0, hne1, hf], ?_, ?_, ?_, ?_⟩
      · obtain ⟨b, zs, hb, _, _⟩ := walk_cons h r _ _ ys hrec
        constructor
        · have hfuel : (q.len - 1).toNat = m := by omega
          simp only [queued, hb, hr, hfuel, List.tail_cons]
          rw [← hb]; exact hrec
        · simp; omega
      · intro _; exact ⟨rfl, rfl⟩
      · intro h2; omega
      · intro h0; omega
  · simp at hqd

/-! ## Claims on the semaphore and on single queue calls -/

/-- C4: `task_queue_push` returns -1 exactly when the handler of the task is
`NULL`, for every queue, memory and task; and when it returns -1 the queue
(front, rear, length, semaphore) and the memory are those before the call. -/
theorem push_rejects_exactly_null_handler (q : task_queue) (h : Heap) (t : Nat) :
    ((∃ q1 h1, task_queue_push q h t = some (-1, q1, h1)) ↔ (h t).handler = none) ∧
    (∀ q1 h1, task_queue_push q h t = some (-1, q1, h1) →
      q1.front = q.front ∧ q1.rear = q.rear ∧ q1.len = q.len ∧
      q1.has_tasks.v = q.has_tasks.v ∧ q1 = q ∧ h1 = h) := by
  have key : ∀ q1 h1, task_queue_push q h t = some (-1, q1, h1) →
      (h t).handler = none ∧ q1 = q ∧ h1 = h := by
    intro q1 h1 hp
    unfold task_queue_push at hp
    split at hp
    · rename_i hn
      simp at hp
      exact ⟨hn, hp.1.symm, hp.2.symm⟩
    · simp only at hp
      split at hp
      · simp at hp
      · split at hp <;> simp at hp
  constructor
  · constructor
    · rintro ⟨q1, h1, hp⟩
      exact (key q1 h1 hp).1
    · intro hn
      exact ⟨q, h, by simp [task_queue_push, hn]⟩
  · intro q1 h1 hp
    obtain ⟨_, hq, hh⟩ := key q1 h1 hp
    subst hq; subst hh
    simp

/-- C7: `bsem_init(value)` yields a semaphore exactly when `value` is 0 or 1,
with `v = value`, and otherwise exits; from a semaphore with `v` in {0,1},
reset gives 0, post and post_all give 1, and a `bsem_wait` that returns gives
0 (and it does return when `v` is 1). -/
theorem bsem_value_in_zero_one (value : Int) (b : bsem) :
    ((value = 0 ∨ value = 1) → bsem_init value = some { v := value }) ∧
    (¬ (value = 0 ∨ value = 1) → bsem_init value = none) ∧
    bsem_reset b = some { v := 0 } ∧
    (bsem_post b).v = 1 ∧
    (bsem_post_all b).v = 1 ∧
    (∀ b1, bsem_wait b = some b1 → b1.v = 0) ∧
    (b.v = 1 → bsem_wait b = some { v := 0 }) := by
  refine ⟨?_, ?_, ?_, rfl, rfl, ?_, ?_⟩
  · intro hv
    unfold bsem_init
    rw [if_neg]
    omega
  · intro hv
    unfold bsem_init
    rw [if_pos]
    omega
  · simp [bsem_reset, bsem_init]
  · intro b1 hw
    unfold bsem_wait at hw
    split at hw
    · simp at hw
    · simp at hw; rw [← hw]
  · intro h1
    simp [bsem_wait, h1]

/-- Witness of C7, at `value = 1` and a semaphore with `v = 1`. -/
theorem bsem_value_in_zero_one_witness :
    (bsem_init 1 = some { v := 1 }) ∧ (bsem_reset { v := 1 } = some { v := 0 }) ∧
    (bsem_wait { v := 1 } = some { v := 0 }) :=
  have w := bsem_value_in_zero_one 1 { v := 1 }
  ⟨w.1 (Or.inr rfl), w.2.2.1, w.2.2.2.2.2.2 rfl⟩

/-- C8: `bsem_wait` returns only from `v = 1` and leaves `v = 0`; a post after a
post changes nothing; so after `k ≥ 1` posts in a row one `bsem_wait` returns,
a second one does not, and it does again after another post. -/
theorem bsem_single_slot (b : bsem) (k : Nat) (hk : 1 ≤ k) :
    (∀ b0 b1, bsem_wait b0 = some b1 → b0.v = 1 ∧ b1.v = 0) ∧
    bsem_post (bsem_post b) = bsem_post b ∧
    (bsem_post^[k] b) = bsem_post b ∧
    (∃ b1, bsem_wait (bsem_post^[k] b) = some b1 ∧ bsem_wait b1 = none ∧
      (bsem_wait (bsem_post b1)).isSome = true) := by
  have hit : ∀ n : Nat, (bsem_post^[n + 1] b) = bsem_post b := by
    intro n
    induction n with
    | zero => rfl
    | succ n ih => rw [Function.iterate_succ_apply', ih]; rfl
  obtain ⟨n, rfl⟩ : ∃ n, k = n + 1 := ⟨k - 1, by omega⟩
  refine ⟨?_, rfl, hit n, ?_⟩
  · intro b0 b1 hw
    unfold bsem_wait at hw
    split at hw
    · simp at hw
    · rename_i hv
      simp at hw hv
      exact ⟨hv, by rw [← hw]⟩
  · rw [hit n]
    exact ⟨{ v := 0 }, by simp [bsem_wait, bsem_post], by simp [bsem_wait], by
      simp [bsem_wait, bsem_post]⟩

/-- Witness of C8: three posts on a semaphore at 0. -/
theorem bsem_single_slot_witness :
    (bsem_post^[3] { v := 0 }) = bsem_post { v := 0 } ∧
    ∃ b1, bsem_wait (bsem_post^[3] { v := 0 }) = some b1 ∧ bsem_wait b1 = none ∧
      (bsem_wait (bsem_post b1)).isSome = true :=
  have w := bsem_single_slot { v := 0 } 3 (by decide)
  ⟨w.2.2.1, w.2.2.2⟩

/-- C9: on a well-formed queue `task_queue_pull` is defined; when two or more
tasks were queued the queue is non-empty afterwards and the semaphore value is
1; when at most one was queued the queue is empty afterwards and the semaphore
value is the one before; and when none was queued the queue is unchanged. -/
theorem pull_reposts_iff_tasks_remain (h : Heap) (q : task_queue) (hwf : WF h q) :
    ∃ p q1, task_queue_pull q h = some (p, q1) ∧
      (2 ≤ q.len → q1.len = q.len - 1 ∧ q1.len ≠ 0 ∧ q1.has_tasks.v = 1) ∧
      (q.len ≤ 1 → q1.len = 0 ∧ q1.has_tasks.v = q.has_tasks.v) ∧
      (q.len = 0 → q1.front = q.front ∧ q1.rear = q.rear ∧ q1.len = q.len ∧ p = none) := by
  obtain ⟨xs, hq⟩ := (wf_iff_holds h q).mp hwf
  obtain ⟨q1, hp, _, h2, h1, h0⟩ := holds_pull h q xs hq
  obtain ⟨hf, he, _⟩ := holds_shape h q xs hq
  refine ⟨_, q1, hp, ?_, ?_, ?_⟩
  · intro hl
    obtain ⟨hs, hlen⟩ := h2 hl
    refine ⟨hlen, by omega, ?_⟩
    rw [hs]; rfl
  · intro hl
    obtain ⟨hs, hlen⟩ := h1 hl
    exact ⟨hlen, by rw [hs]⟩
  · intro hl
    have := h0 hl
    subst this
    have hx := he.mp hl
    subst hx
    simp

/-- Witness of C9: a pull on the well-formed queue of the tasks 1, 2, 3. -/
theorem pull_reposts_iff_tasks_remain_witness :
    WF mem3 queue3 ∧ ∃ p q1, task_queue_pull queue3 mem3 = some (p, q1) ∧
      (2 ≤ queue3.len → q1.len = queue3.len - 1 ∧ q1.len ≠ 0 ∧ q1.has_tasks.v = 1) ∧
      (queue3.len ≤ 1 → q1.len = 0 ∧ q1.has_tasks.v = queue3.has_tasks.v) ∧
      (queue3.len = 0 →
        q1.front = queue3.front ∧ q1.rear = queue3.rear ∧ q1.len = queue3.len ∧ p = none) :=
  ⟨by decide, pull_reposts_iff_tasks_remain mem3 queue3 (by decide)⟩

/-! ## Clearing the queue -/

theorem drain_trace_pulled (xs : List Nat) : pulled_of (drain_trace xs) = xs.map some := by
  induction xs with
  | nil => rfl
  | cons a xs ih => simp [drain_trace, pulled_of, ih]

theorem drain_trace_freed (xs : List Nat) : freed_of (drain_trace xs) = xs := by
  induction xs with
  | nil => rfl
  | cons a xs ih => simp [drain_trace, pulled_of, freed_of, ih]

theorem drain_trace_called (xs : List Nat) : called_of (drain_trace xs) = [] := by
  induction xs with
  | nil => rfl
  | cons a xs ih => simp [drain_trace, called_of, ih]

/-- The loop of `task_queue_clear` on a queue holding `xs` ends within
`xs.length` iterations, having pulled and freed each task of `xs` in turn. -/
theorem clear_loop_holds (h : Heap) :
    ∀ (xs : List Nat) (fuel : Nat) (q : task_queue) (log : List Event),
      Holds h q xs → xs.length ≤ fuel →
      ∃ q1, clear_loop fuel q h log = some (q1, log ++ drain_trace xs) ∧ Holds h q1 [] := by
  intro xs
  induction xs with
  | nil =>
    intro fuel q log hq _
    have hl : q.len = 0 := ((holds_shape h q [] hq).2.1).mpr rfl
    refine ⟨q, ?_, hq⟩
    cases fuel <;> simp [clear_loop, hl, drain_trace]
  | cons a ys ih =>
    intro fuel q log hq hfuel
    have hl : q.len ≠ 0 := by
      intro e
      have := ((holds_shape h q _ hq).2.1).mp e
      simp at this
    obtain ⟨n, rfl⟩ : ∃ n, fuel = n + 1 := ⟨fuel - 1, by simp at hfuel; omega⟩
    obtain ⟨q1, hp, hq1, _⟩ := holds_pull h q _ hq
    simp only [List.head?_cons, List.tail_cons] at hp hq1
    obtain ⟨q2, hc, hq2⟩ := ih n q1 (free (some a) (log ++ [Event.pulled (some a)])) hq1
      (by simp at hfuel; omega)
    refine ⟨q2, ?_, hq2⟩
    rw [clear_loop]
    simp only [hl, if_false, hp, hc]
    simp [free, drain_trace]

/-- C10: on a well-formed queue holding the tasks `xs` (so `len = xs.length`),
whatever the semaphore value, `task_queue_clear` ends (any fuel of at least
`len` iterations suffices); what it adds to the trace is exactly one pull and
one free per queued task, in queue order, the queued tasks being pairwise
distinct, and no handler call; afterwards `len = 0`, `front = rear = NULL` and
the semaphore value is 0. -/
theorem clear_drains_without_executing (h : Heap) (q : task_queue) (xs : List Nat)
    (log : List Event) (fuel : Nat) (hwf : WF h q) (hxs : queued h q = some xs)
    (hfuel : q.len.toNat ≤ fuel) :
    ∃ q1 tr, task_queue_clear fuel q h log = some (q1, log ++ tr) ∧
      (xs.length : Int) = q.len ∧ xs.Nodup ∧
      pulled_of tr = xs.map some ∧ (pulled_of tr).length = q.len.toNat ∧
      freed_of tr = xs ∧ called_of tr = [] ∧
      q1.len = 0 ∧ q1.front = none ∧ q1.rear = none ∧ q1.has_tasks.v = 0 := by
  obtain ⟨h0, hm, _⟩ := hwf
  have hlen : (xs.length : Int) = q.len := by
    rw [hxs] at hm; simp at hm; omega
  have hq : Holds h q xs := ⟨hxs, hlen⟩
  obtain ⟨q2, hc, _⟩ := clear_loop_holds h xs fuel q log hq (by omega)
  refine ⟨{ front := none, rear := none, has_tasks := { v := 0 }, len := 0 }, drain_trace xs,
    ?_, hlen, (holds_shape h q xs hq).2.2.2.2, drain_trace_pulled xs, ?_, drain_trace_freed xs,
    drain_trace_called xs, rfl, rfl, rfl, rfl⟩
  · simp [task_queue_clear, hc, bsem_reset, bsem_init]
  · rw [drain_trace_pulled]; simp; omega

/-- Witness of C10: clearing the queue of the tasks 1, 2, 3. -/
theorem clear_drains_without_executing_witness :
    ∃ q1 tr, task_queue_clear 3 queue3 mem3 [] = some (q1, [] ++ tr) ∧
      (([1, 2, 3] : List Nat).length : Int) = queue3.len ∧ ([1, 2, 3] : List Nat).Nodup ∧
      pulled_of tr = ([1, 2, 3] : List Nat).map some ∧
      (pulled_of tr).length = queue3.len.toNat ∧
      freed_of tr = [1, 2, 3] ∧ called_of tr = [] ∧
      q1.len = 0 ∧ q1.front = none ∧ q1.rear = none ∧ q1.has_tasks.v = 0 :=
  clear_drains_without_executing mem3 queue3 [1, 2, 3] [] 3 (by decide) (by decide) (by decide)

/-! ## The well-formedness invariant -/

theorem wf_empty (h : Heap) (b : bsem) :
    WF h { front := none, rear := none, has_tasks := b, len := 0 } := by
  simp [WF, queued]

/-- C5, as stated, fails: the queue of the tasks 1, 2 is well-formed, and
`task_queue_push` of task 1, which is linked in it, returns 0 and leaves a
queue that is not well-formed (`len` is 3, `front` and `rear` are both task 1). -/
theorem push_of_linked_task_breaks_wf :
    WF mem3 queue2 ∧
    (task_queue_push queue2 mem3 1).map (fun r => (r.1, decide (WF r.2.2 r.2.1), r.2.1.len,
      r.2.1.front, r.2.1.rear, (r.2.2 1).prev)) = some (0, false, 3, some 1, some 1, none) :=
  ⟨by decide, rfl⟩

/-- C5, amended: the queue `task_queue_init` yields is well-formed, and from a
well-formed queue holding the tasks `xs`, `task_queue_push` of a task that is
not among `xs` (accepted or rejected), `task_queue_pull` and
`task_queue_clear` are defined and leave a well-formed queue. -/
theorem wf_invariant (h : Heap) (q : task_queue) (xs : List Nat) (t : Nat) (log : List Event)
    (fuel : Nat) (hwf : WF h q) (hxs : queued h q = some xs) (ht : t ∉ xs)
    (hfuel : q.len.toNat ≤ fuel) :
    (∃ q0, task_queue_init true = some (0, some q0) ∧ WF h q0) ∧
    (∃ r q1 h1, task_queue_push q h t = some (r, q1, h1) ∧ WF h1 q1) ∧
    (∃ p q1, task_queue_pull q h = some (p, q1) ∧ WF h q1) ∧
    (∃ q1 log1, task_queue_clear fuel q h log = some (q1, log1) ∧ WF h q1) := by
  have hlen : (xs.length : Int) = q.len := by
    obtain ⟨h0, hm, _⟩ := hwf
    rw [hxs] at hm; simp at hm; omega
  have hq : Holds h q xs := ⟨hxs, hlen⟩
  refine ⟨⟨_, rfl, wf_empty h _⟩, ?_, ?_, ?_⟩
  · by_cases hh : (h t).handler = none
    · exact ⟨-1, q, h, by simp [task_queue_push, hh], hwf⟩
    · obtain ⟨q1, h1, hp, hq1, _⟩ := holds_push h q xs t hq ht hh
      exact ⟨0, q1, h1, hp, (wf_iff_holds h1 q1).mpr ⟨_, hq1⟩⟩
  · obtain ⟨q1, hp, hq1, _⟩ := holds_pull h q xs hq
    exact ⟨_, q1, hp, (wf_iff_holds h q1).mpr ⟨_, hq1⟩⟩
  · obtain ⟨q2, hc, _⟩ := clear_loop_holds h xs fuel q log hq (by omega)
    refine ⟨{ front := none, rear := none, has_tasks := { v := 0 }, len := 0 },
      log ++ drain_trace xs, ?_, wf_empty h _⟩
    simp [task_queue_clear, hc, bsem_reset, bsem_init]

/-- Witness of C5 (amended): the queue of the tasks 1, 2, 3 and a push of task 5. -/
theorem wf_invariant_witness :
    WF mem3 queue3 ∧
    (∃ q0, task_queue_init true = some (0, some q0) ∧ WF mem3 q0) ∧
    (∃ r q1 h1, task_queue_push queue3 mem3 5 = some (r, q1, h1) ∧ WF h1 q1) ∧
    (∃ p q1, task_queue_pull queue3 mem3 = some (p, q1) ∧ WF mem3 q1) ∧
    (∃ q1 log1, task_queue_clear 3 queue3 mem3 [] = some (q1, log1) ∧ WF mem3 q1) :=
  ⟨by decide,
    wf_invariant mem3 queue3 [1, 2, 3] 5 [] 3 (by decide) (by decide) (by decide) (by decide)⟩

/-! ## First in, first out -/

/-- Running pushes of distinct tasks with a handler, none of them linked in the
queue, and pulls, from a queue holding `xs`: the run is defined, and the tasks
the pulls returned followed by the tasks the queue holds at the end are `xs`
followed by the pushed tasks. -/
theorem run_ops_holds :
    ∀ (ops : List QOp) (q : task_queue) (h : Heap) (xs : List Nat),
      Holds h q xs → (pushes ops).Nodup → (∀ t ∈ pushes ops, t ∉ xs) →
      (∀ t ∈ pushes ops, (h t).handler ≠ none) →
      ∃ q1 h1 rs rest, run_ops ops q h = some (q1, h1, rs) ∧ Holds h1 q1 rest ∧
        rs.reduceOption ++ rest = xs ++ pushes ops := by
  intro ops
  induction ops with
  | nil =>
    intro q h xs hq _ _ _
    exact ⟨q, h, [], xs, rfl, hq, by simp [pushes]⟩
  | cons op ops ih =>
    intro q h xs hq hnd hfresh hh
    cases op with
    | push t =>
      simp only [pushes, List.nodup_cons, List.mem_cons, forall_eq_or_imp] at hnd hfresh hh
      obtain ⟨q1, h1, hp, hq1, hsame, _⟩ := holds_push h q xs t hq hfresh.1 hh.1
      obtain ⟨q2, h2, rs, rest, hr, hq2, heq⟩ := ih q1 h1 (xs ++ [t]) hq1 hnd.2
        (by
          intro u hu
          simp only [List.mem_append, List.mem_singleton, not_or]
          exact ⟨hfresh.2 u hu, fun e => hnd.1 (e ▸ hu)⟩)
        (by
          intro u hu
          rw [hsame]
          exact hh.2 u hu)
      refine ⟨q2, h2, rs, rest, ?_, hq2, ?_⟩
      · simp [run_ops, hp, hr]
      · simp [pushes, heq]
    | pull =>
      simp only [pushes] at hnd hfresh hh
      obtain ⟨q1, hp, hq1, _⟩ := holds_pull h q xs hq
      obtain ⟨q2, h2, rs, rest, hr, hq2, heq⟩ := ih q1 h xs.tail hq1 hnd
        (fun u hu hm => hfresh u hu (List.mem_of_mem_tail hm)) hh
      refine ⟨q2, h2, xs.head? :: rs, rest, ?_, hq2, ?_⟩
      · simp [run_ops, hp, hr]
      · cases xs with
        | nil => simpa [pushes] using heq
        | cons a ys => simpa [pushes] using heq

/-- C1: from the queue `task_queue_init` yields, every sequence of pushes of
pairwise distinct tasks with a handler and of pulls is defined; the non-null
tasks the pulls returned, in order, followed by the tasks linked in the queue
from front to rear, are the pushed tasks in push order; and a pull at that
moment returns `NULL` exactly when the queue is empty (`len = 0`, no task
linked). -/
theorem fifo_no_loss_no_duplication (h0 : Heap) (ops : List QOp) (hd : (pushes ops).Nodup)
    (hh : ∀ t ∈ pushes ops, (h0 t).handler ≠ none) :
    ∃ q0, task_queue_init true = some (0, some q0) ∧
      ∃ q h rs rest, run_ops ops q0 h0 = some (q, h, rs) ∧ queued h q = some rest ∧
        rs.reduceOption ++ rest = pushes ops ∧
        ∃ p q1, task_queue_pull q h = some (p, q1) ∧ (p = none ↔ q.len = 0) ∧
          (q.len = 0 ↔ rest = []) := by
  refine ⟨{ front := none, rear := none, has_tasks := { v := 0 }, len := 0 }, rfl, ?_⟩
  have hq0 : Holds h0 { front := none, rear := none, has_tasks := { v := 0 }, len := 0 } [] := by
    simp [Holds, queued]
  obtain ⟨q, h, rs, rest, hr, hq, heq⟩ := run_ops_holds ops _ h0 [] hq0 hd (by simp) hh
  obtain ⟨q1, hp, _⟩ := holds_pull h q rest hq
  obtain ⟨_, he, _⟩ := holds_shape h q rest hq
  refine ⟨q, h, rs, rest, hr, hq.1, by simpa using heq, _, q1, hp, ?_, he⟩
  rw [he]
  cases rest <;> simp

/-- Witness of C1: push 1, push 2, pull, push 3, pull, pull, pull. -/
theorem fifo_no_loss_no_duplication_witness :
    ∃ q0, task_queue_init true = some (0, some q0) ∧
      ∃ q h rs rest, run_ops [QOp.push 1, QOp.push 2, QOp.pull, QOp.push 3, QOp.pull, QOp.pull,
          QOp.pull] q0 heap0 = some (q, h, rs) ∧ queued h q = some rest ∧
        rs.reduceOption ++ rest = pushes [QOp.push 1, QOp.push 2, QOp.pull, QOp.push 3,
          QOp.pull, QOp.pull, QOp.pull] ∧
        ∃ p q1, task_queue_pull q h = some (p, q1) ∧ (p = none ↔ q.len = 0) ∧
          (q.len = 0 ↔ rest = []) :=
  fifo_no_loss_no_duplication heap0 _ (by decide) (by intro t _; simp [heap0])

/-! ## The counters of the pool -/

/-- Replacing the entry `a` at index `i` by `x` moves a sum over the list by
the difference of the two summands. -/
theorem sum_map_set {M : Type} [AddCommMonoid M] (f : Pc → M) :
    ∀ (l : List Pc) (i : Nat) (a x : Pc), l[i]? = some a →
      ((l.set i x).map f).sum + f a = (l.map f).sum + f x
  | [], i, a, x, hl => by simp at hl
  | b :: l, 0, a, x, hl => by
    simp at hl; subst hl
    simp only [List.set, List.map_cons, List.sum_cons]
    abel
  | b :: l, i + 1, a, x, hl => by
    simp at hl
    have ih := sum_map_set f l i a x hl
    simp only [List.set, List.map_cons, List.sum_cons]
    rw [add_assoc, ih, add_assoc]

/-- What a step of worker `i` does to the worker list, the two counters and the
queue: the queue is untouched, or only its semaphore changes, or it is the
queue a `task_queue_pull` leaves. -/
theorem thread_do_counters (s s1 : Sys) (i : Nat) (hs : thread_do s i = some s1) :
    ∃ pc pc1, s.pool.threads[i]? = some pc ∧ s1.pool.threads = s.pool.threads.set i pc1 ∧
      s1.pool.num_threads_working + is_working pc = s.pool.num_threads_working + is_working pc1 ∧
      s1.pool.num_threads_alive + is_alive pc = s.pool.num_threads_alive + is_alive pc1 ∧
      (s1.pool.task_queue = s.pool.task_queue ∨
        (∃ b, s1.pool.task_queue = { s.pool.task_queue with has_tasks := b }) ∨
        (∃ p, task_queue_pull s.pool.task_queue s.mem = some (p, s1.pool.task_queue))) := by
  unfold thread_do at hs
  split at hs
  · simp at hs
  · rename_i hpc
    simp at hs; subst hs
    exact ⟨_, Pc.loop_top, hpc, rfl, by simp [goto, is_working], by simp [goto, is_alive],
        Or.inl rfl⟩
  · rename_i hpc
    split at hs <;> simp at hs <;> subst hs
    · exact ⟨_, Pc.wait, hpc, rfl, by simp [goto, is_working], by simp [goto, is_alive],
        Or.inl rfl⟩
    · exact ⟨_, Pc.leave, hpc, rfl, by simp [goto, is_working], by simp [goto, is_alive],
        Or.inl rfl⟩
  · rename_i hpc
    split at hs
    · simp at hs
    · simp at hs; subst hs
      exact ⟨_, Pc.woke, hpc, rfl, by simp [goto, is_working], by simp [goto, is_alive],
        Or.inr (Or.inl ⟨_, rfl⟩)⟩
  · rename_i hpc
    split at hs <;> simp at hs <;> subst hs
    · exact ⟨_, Pc.count, hpc, rfl, by simp [goto, is_working], by simp [goto, is_alive],
        Or.inl rfl⟩
    · exact ⟨_, Pc.loop_top, hpc, rfl, by simp [goto, is_working], by simp [goto, is_alive],
        Or.inl rfl⟩
  · rename_i hpc
    simp at hs; subst hs
    exact ⟨_, Pc.pull, hpc, rfl, by simp [goto, is_working], by simp [goto, is_alive],
        Or.inl rfl⟩
  · rename_i hpc
    split at hs
    · simp at hs
    · rename_i p q1 hpull
      simp at hs; subst hs
      exact ⟨_, Pc.got _, hpc, rfl, by simp [goto, is_working], by simp [goto, is_alive],
        Or.inr (Or.inr ⟨p, hpull⟩)⟩
  · rename_i hpc
    simp at hs; subst hs
    exact ⟨_, Pc.uncount, hpc, rfl, by simp [goto, is_working], by simp [goto, is_alive],
        Or.inl rfl⟩
  · rename_i hpc
    split at hs <;> simp at hs <;> subst hs
    · exact ⟨_, Pc.run _, hpc, rfl, by simp [goto, is_working], by simp [goto, is_alive],
        Or.inl rfl⟩
    · exact ⟨_, Pc.free _, hpc, rfl, by simp [goto, is_working], by simp [goto, is_alive],
        Or.inl rfl⟩
  · rename_i hpc
    simp at hs; subst hs
    exact ⟨_, Pc.free _, hpc, rfl, by simp [goto, is_working], by simp [goto, is_alive],
        Or.inl rfl⟩
  · rename_i hpc
    simp at hs; subst hs
    exact ⟨_, Pc.uncount, hpc, rfl, by simp [goto, is_working], by simp [goto, is_alive],
        Or.inl rfl⟩
  · rename_i hpc
    simp at hs; subst hs
    exact ⟨_, Pc.loop_top, hpc, rfl, by simp [goto, is_working], by simp [goto, is_alive],
        Or.inl rfl⟩
  · rename_i hpc
    simp at hs; subst hs
    exact ⟨_, Pc.dead, hpc, rfl, by simp [goto, is_working], by simp [goto, is_alive],
        Or.inl rfl⟩
  · simp at hs

theorem step_counted (s s1 : Sys) (a : Action) (hc : Counted s) (hs : step s a = some s1) :
    Counted s1 ∧ s1.pool.threads.length = s.pool.threads.length := by
  cases a with
  | push t =>
    simp only [step] at hs
    split at hs
    · simp at hs
    · simp at hs; subst hs
      exact ⟨hc, rfl⟩
  | worker i =>
    simp only [step] at hs
    obtain ⟨pc, pc1, hpc, hth, hw, ha, _⟩ := thread_do_counters s s1 i hs
    have kw := sum_map_set is_working s.pool.threads i pc pc1 hpc
    have ka := sum_map_set is_alive s.pool.threads i pc pc1 hpc
    obtain ⟨cw, ca⟩ := hc
    refine ⟨⟨?_, ?_⟩, by rw [hth]; simp⟩
    · rw [hth]; omega
    · rw [hth]; omega
  | stop =>
    simp only [step] at hs
    simp at hs; subst hs
    exact ⟨hc, rfl⟩
  | post_all =>
    simp only [step] at hs
    simp at hs; subst hs
    exact ⟨hc, rfl⟩
  | keepalive_on =>
    simp only [step] at hs
    simp at hs; subst hs
    exact ⟨hc, rfl⟩
  | hold_on =>
    simp only [step] at hs
    simp at hs; subst hs
    exact ⟨hc, rfl⟩
  | hold_off =>
    simp only [step] at hs
    simp at hs; subst hs
    exact ⟨hc, rfl⟩

theorem run_counted :
    ∀ (acts : List Action) (s s1 : Sys), Counted s → run acts s = some s1 →
      Counted s1 ∧ s1.pool.threads.length = s.pool.threads.length := by
  intro acts
  induction acts with
  | nil =>
    intro s s1 hc hr
    simp [run] at hr; subst hr
    exact ⟨hc, rfl⟩
  | cons a acts ih =>
    intro s s1 hc hr
    simp only [run] at hr
    split at hr
    · simp at hr
    · rename_i s2 hs
      obtain ⟨hc2, hl2⟩ := step_counted s s2 a hc hs
      obtain ⟨hc1, hl1⟩ := ih s2 s1 hc2 hr
      exact ⟨hc1, by rw [hl1, hl2]⟩

theorem spawned_counted (n : Int) (h : Heap) : Counted (spawned n h) := by
  simp [Counted, spawned, is_working, is_alive]

theorem sum_map_le (f g : Pc → Nat) (hfg : ∀ x, f x ≤ g x) :
    ∀ l : List Pc, (l.map f).sum ≤ (l.map g).sum
  | [] => by simp
  | a :: l => by
    have := sum_map_le f g hfg l
    have := hfg a
    simp only [List.map_cons, List.sum_cons]
    omega

theorem sum_map_le_length (f : Pc → Nat) (hf : ∀ x, f x ≤ 1) :
    ∀ l : List Pc, (l.map f).sum ≤ l.length
  | [] => by simp
  | a :: l => by
    have := sum_map_le_length f hf l
    have := hf a
    simp only [List.map_cons, List.sum_cons, List.length_cons]
    omega

theorem le_sum_map (f : Pc → Nat) :
    ∀ (l : List Pc) (i : Nat) (a : Pc), l[i]? = some a → f a ≤ (l.map f).sum
  | [], i, a, hl => by simp at hl
  | b :: l, 0, a, hl => by
    simp at hl; subst hl
    simp
  | b :: l, i + 1, a, hl => by
    simp at hl
    have := le_sum_map f l i a hl
    simp only [List.map_cons, List.sum_cons]
    omega

/-- C6: in every state the pool of `thpool_init(n)` can reach,
`0 ≤ num_threads_working ≤ num_threads_alive ≤` the thread count (`n`, or 0
when `n` is negative), and the number of workers inside a handler is at most
`num_threads_working`, hence at most the thread count. -/
theorem counters_bounded (n : Int) (h0 : Heap) (s : Sys) (hr : Reachable n h0 s) :
    0 ≤ s.pool.num_threads_working ∧
    s.pool.num_threads_working ≤ s.pool.num_threads_alive ∧
    s.pool.num_threads_alive ≤ (if n < 0 then 0 else n) ∧
    (((s.pool.threads.map is_running).sum : Nat) : Int) ≤ s.pool.num_threads_working ∧
    (((s.pool.threads.map is_running).sum : Nat) : Int) ≤ (if n < 0 then 0 else n) := by
  obtain ⟨acts, hrun⟩ := hr
  obtain ⟨⟨cw, ca⟩, hlen⟩ := run_counted acts _ s (spawned_counted n h0) hrun
  have h1 : (s.pool.threads.map is_running).sum ≤ (s.pool.threads.map is_working).sum :=
    sum_map_le _ _ (by intro x; cases x <;> simp [is_running, is_working]) _
  have h2 : (s.pool.threads.map is_working).sum ≤ (s.pool.threads.map is_alive).sum :=
    sum_map_le _ _ (by intro x; cases x <;> simp [is_alive, is_working]) _
  have h3 : (s.pool.threads.map is_alive).sum ≤ s.pool.threads.length :=
    sum_map_le_length _ (by intro x; cases x <;> simp [is_alive]) _
  have h4 : (s.pool.threads.length : Int) = (if n < 0 then 0 else n) := by
    rw [hlen]
    simp only [spawned, List.length_replicate]
    split <;> omega
  refine ⟨?_, ?_, ?_, ?_, ?_⟩ <;> omega

/-- Witness of C6: a pool of two workers, one inside a handler, the other started. -/
theorem counters_bounded_witness :
    ∃ s, run [Action.worker 0, Action.worker 1, Action.push 3, Action.worker 0, Action.worker 0,
        Action.worker 0, Action.worker 0, Action.worker 0, Action.worker 0] (spawned 2 heap0)
        = some s ∧
      s.pool.threads = [Pc.run 3, Pc.loop_top] ∧
      0 ≤ s.pool.num_threads_working ∧
      s.pool.num_threads_working ≤ s.pool.num_threads_alive ∧
      s.pool.num_threads_alive ≤ 2 ∧
      (((s.pool.threads.map is_running).sum : Nat) : Int) ≤ s.pool.num_threads_working :=
  ⟨_, rfl, by decide,
    have w := counters_bounded 2 heap0 _ ⟨[Action.worker 0, Action.worker 1, Action.push 3,
      Action.worker 0, Action.worker 0, Action.worker 0, Action.worker 0, Action.worker 0,
      Action.worker 0], rfl⟩
    ⟨w.1, w.2.1, w.2.2.1, w.2.2.2.1⟩⟩

/-! ## Bookkeeping of the tasks -/

theorem pushed_of_append (l1 l2 : List Event) :
    pushed_of (l1 ++ l2) = pushed_of l1 ++ pushed_of l2 := by
  induction l1 with
  | nil => rfl
  | cons e l ih => cases e <;> simp [pushed_of, ih]

theorem called_of_append (l1 l2 : List Event) :
    called_of (l1 ++ l2) = called_of l1 ++ called_of l2 := by
  induction l1 with
  | nil => rfl
  | cons e l ih => cases e <;> simp [called_of, ih]

theorem returned_of_append (l1 l2 : List Event) :
    returned_of (l1 ++ l2) = returned_of l1 ++ returned_of l2 := by
  induction l1 with
  | nil => rfl
  | cons e l ih => cases e <;> simp [returned_of, ih]

theorem holds_has_tasks (h : Heap) (q : task_queue) (b : bsem) (xs : List Nat)
    (hq : Holds h q xs) : Holds h { q with has_tasks := b } xs := by
  simpa [Holds, queued] using hq

theorem held_set (l : List Pc) (i : Nat) (pc pc1 : Pc) (hl : l[i]? = some pc) :
    held (l.set i pc1) + ↑(holding pc) = held l + ↑(holding pc1) :=
  sum_map_set (fun pc => (holding pc : Multiset Nat)) l i pc pc1 hl

theorem executing_set (l : List Pc) (i : Nat) (pc pc1 : Pc) (hl : l[i]? = some pc) :
    executing (l.set i pc1) + ↑(inside pc) = executing l + ↑(inside pc1) :=
  sum_map_set (fun pc => (inside pc : Multiset Nat)) l i pc pc1 hl

/-- A worker step keeps the bookkeeping when the memory is unchanged, nothing
is pushed, and what the step does to the queue, the trace and the worker
balances. -/
theorem tracked_goto (h0 : Heap) (s s1 : Sys) (xs xs1 : List Nat) (i : Nat) (pc pc1 : Pc)
    (ht : Tracked h0 s xs) (hpc : s.pool.threads[i]? = some pc)
    (hth : s1.pool.threads = s.pool.threads.set i pc1) (hmem : s1.mem = s.mem)
    (hq : Holds s.mem s1.pool.task_queue xs1)
    (hpush : pushed_of s1.log = pushed_of s.log)
    (hbal : (returned_of s1.log : Multiset Nat) + ↑(holding pc1) + ↑xs1 =
      ↑(returned_of s.log) + ↑(holding pc) + ↑xs)
    (hcall : (called_of s1.log : Multiset Nat) + ↑(returned_of s.log) + ↑(inside pc) =
      ↑(called_of s.log) + ↑(returned_of s1.log) + ↑(inside pc1))
    (hf : ∀ t f, Event.call t f ∈ s1.log → Event.call t f ∈ s.log ∨ (h0 t).handler = some f) :
    Tracked h0 s1 xs1 := by
  obtain ⟨_, tm, th, tb, tc, tf⟩ := ht
  have kh := held_set s.pool.threads i pc pc1 hpc
  have ke := executing_set s.pool.threads i pc pc1 hpc
  refine ⟨by rw [hmem]; exact hq, by rw [hmem]; exact tm, by rw [hpush]; exact th, ?_, ?_, ?_⟩
  · rw [hpush, hth, tb]
    apply add_right_cancel (b := (↑(holding pc) : Multiset Nat))
    calc ↑(returned_of s.log) + held s.pool.threads + ↑xs + ↑(holding pc)
        = (↑(returned_of s.log) + ↑(holding pc) + ↑xs) + held s.pool.threads := by abel
      _ = (↑(returned_of s1.log) + ↑(holding pc1) + ↑xs1) + held s.pool.threads := by rw [hbal]
      _ = ↑(returned_of s1.log) + (held s.pool.threads + ↑(holding pc1)) + ↑xs1 := by abel
      _ = ↑(returned_of s1.log) + (held (s.pool.threads.set i pc1) + ↑(holding pc)) + ↑xs1 := by
        rw [kh]
      _ = ↑(returned_of s1.log) + held (s.pool.threads.set i pc1) + ↑xs1 + ↑(holding pc) := by
        abel
  · rw [hth]
    apply add_right_cancel (b := (↑(returned_of s.log) + ↑(inside pc) : Multiset Nat))
    calc ↑(called_of s1.log) + (↑(returned_of s.log) + ↑(inside pc))
        = ↑(called_of s1.log) + ↑(returned_of s.log) + ↑(inside pc) := by abel
      _ = ↑(called_of s.log) + ↑(returned_of s1.log) + ↑(inside pc1) := hcall
      _ = ↑(returned_of s.log) + executing s.pool.threads + ↑(returned_of s1.log)
            + ↑(inside pc1) := by rw [tc]
      _ = ↑(returned_of s1.log) + ↑(returned_of s.log)
            + (executing s.pool.threads + ↑(inside pc1)) := by abel
      _ = ↑(returned_of s1.log) + ↑(returned_of s.log)
            + (executing (s.pool.threads.set i pc1) + ↑(inside pc)) := by rw [ke]
      _ = ↑(returned_of s1.log) + executing (s.pool.threads.set i pc1)
            + (↑(returned_of s.log) + ↑(inside pc)) := by abel
  · intro t f hm
    rcases hf t f hm with h1 | h1
    · exact tf t f h1
    · exact h1

theorem mem_held (l : List Pc) (i : Nat) (pc : Pc) (t : Nat) (hl : l[i]? = some pc)
    (ht : t ∈ holding pc) : t ∈ held l := by
  have k := held_set l i pc Pc.dead hl
  simp only [holding, Multiset.coe_nil, add_zero] at k
  rw [← k]
  exact Multiset.mem_add.mpr (Or.inr (Multiset.mem_coe.mpr ht))

/-- A step of a worker keeps the bookkeeping; it pushes nothing and adds no
task to the queue. -/
theorem thread_do_tracked (h0 : Heap) (s s1 : Sys) (xs : List Nat) (i : Nat)
    (ht : Tracked h0 s xs) (hs : thread_do s i = some s1) :
    ∃ xs1, Tracked h0 s1 xs1 ∧ (∀ u ∈ xs1, u ∈ xs) ∧ pushed_of s1.log = pushed_of s.log := by
  have hq := ht.1
  unfold thread_do at hs
  split at hs
  · simp at hs
  · rename_i hpc
    simp at hs; subst hs
    exact ⟨xs, tracked_goto h0 s _ xs xs i _ Pc.loop_top ht hpc rfl rfl hq rfl rfl rfl
      (fun _ _ hm => Or.inl hm), fun _ hu => hu, rfl⟩
  · rename_i hpc
    split at hs <;> simp at hs <;> subst hs
    · exact ⟨xs, tracked_goto h0 s _ xs xs i _ Pc.wait ht hpc rfl rfl hq rfl rfl rfl
        (fun _ _ hm => Or.inl hm), fun _ hu => hu, rfl⟩
    · exact ⟨xs, tracked_goto h0 s _ xs xs i _ Pc.leave ht hpc rfl rfl hq rfl rfl rfl
        (fun _ _ hm => Or.inl hm), fun _ hu => hu, rfl⟩
  · rename_i hpc
    split at hs
    · simp at hs
    · simp at hs; subst hs
      exact ⟨xs, tracked_goto h0 s _ xs xs i _ Pc.woke ht hpc rfl rfl
        (holds_has_tasks _ _ _ _ hq) rfl rfl rfl (fun _ _ hm => Or.inl hm), fun _ hu => hu, rfl⟩
  · rename_i hpc
    split at hs <;> simp at hs <;> subst hs
    · exact ⟨xs, tracked_goto h0 s _ xs xs i _ Pc.count ht hpc rfl rfl hq rfl rfl rfl
        (fun _ _ hm => Or.inl hm), fun _ hu => hu, rfl⟩
    · exact ⟨xs, tracked_goto h0 s _ xs xs i _ Pc.loop_top ht hpc rfl rfl hq rfl rfl rfl
        (fun _ _ hm => Or.inl hm), fun _ hu => hu, rfl⟩
  · rename_i hpc
    simp at hs; subst hs
    exact ⟨xs, tracked_goto h0 s _ xs xs i _ Pc.pull ht hpc rfl rfl hq rfl rfl rfl
      (fun _ _ hm => Or.inl hm), fun _ hu => hu, rfl⟩
  · rename_i hpc
    obtain ⟨q1, hp, hq1, _⟩ := holds_pull _ _ xs hq
    rw [hp] at hs
    simp at hs; subst hs
    refine ⟨xs.tail, tracked_goto h0 s _ xs xs.tail i _ (Pc.got xs.head?) ht hpc rfl rfl hq1 rfl
      ?_ rfl (fun _ _ hm => Or.inl hm), fun _ hu => List.mem_of_mem_tail hu, rfl⟩
    cases xs with
    | nil => simp [goto, holding]
    | cons a ys =>
      simp only [goto, holding, List.head?_cons, List.tail_cons, Multiset.coe_nil, add_zero]
      rw [add_assoc]
      rfl
  · rename_i hpc
    simp at hs; subst hs
    exact ⟨xs, tracked_goto h0 s _ xs xs i _ Pc.uncount ht hpc rfl rfl hq rfl rfl rfl
      (fun _ _ hm => Or.inl hm), fun _ hu => hu, rfl⟩
  · rename_i t hpc
    have hmem : t ∈ (pushed_of s.log : Multiset Nat) := by
      rw [ht.2.2.2.1]
      exact Multiset.mem_add.mpr (Or.inl (Multiset.mem_add.mpr (Or.inr
        (mem_held _ i _ t hpc (by simp [holding])))))
    have hne := ht.2.2.1 t (Multiset.mem_coe.mp hmem)
    rw [← ht.2.1 t] at hne
    split at hs
    · rename_i f hf
      simp at hs; subst hs
      refine ⟨xs, tracked_goto h0 s _ xs xs i _ (Pc.run t) ht hpc rfl rfl hq ?_ ?_ ?_ ?_,
        fun _ hu => hu, ?_⟩
      · simp [goto, pushed_of_append, pushed_of]
      · simp [goto, returned_of_append, returned_of, holding]
      · simp only [goto, called_of_append, called_of, returned_of_append, returned_of, inside,
          List.append_nil, Multiset.coe_nil, add_zero, ← Multiset.coe_add]
        abel
      · intro u g hm
        simp only [goto, List.mem_append, List.mem_singleton, Event.call.injEq] at hm
        rcases hm with hm | ⟨rfl, rfl⟩
        · exact Or.inl hm
        · right; rw [← ht.2.1 u]; exact hf
      · simp [goto, pushed_of_append, pushed_of]
    · rename_i hf
      exact absurd hf hne
  · rename_i t hpc
    simp at hs; subst hs
    refine ⟨xs, tracked_goto h0 s _ xs xs i _ (Pc.free t) ht hpc rfl rfl hq ?_ ?_ ?_ ?_,
      fun _ hu => hu, ?_⟩
    · simp [goto, pushed_of_append, pushed_of]
    · simp only [goto, returned_of_append, returned_of, holding, Multiset.coe_nil, add_zero,
        ← Multiset.coe_add]
    · simp only [goto, called_of_append, called_of, returned_of_append, returned_of, inside,
        List.append_nil, Multiset.coe_nil, add_zero, ← Multiset.coe_add]
      abel
    · intro u g hm
      simp only [goto, List.mem_append, List.mem_singleton] at hm
      rcases hm with hm | hm
      · exact Or.inl hm
      · cases hm
    · simp [goto, pushed_of_append, pushed_of]
  · rename_i t hpc
    simp at hs; subst hs
    refine ⟨xs, tracked_goto h0 s _ xs xs i _ Pc.uncount ht hpc rfl rfl hq ?_ ?_ ?_ ?_,
      fun _ hu => hu, ?_⟩
    · simp [goto, free, pushed_of_append, pushed_of]
    · simp [goto, free, returned_of_append, returned_of, holding]
    · simp [goto, free, called_of_append, called_of, returned_of_append, returned_of, inside]
    · intro u g hm
      simp only [goto, free, List.mem_append, List.mem_singleton] at hm
      rcases hm with hm | hm
      · exact Or.inl hm
      · cases hm
    · simp [goto, free, pushed_of_append, pushed_of]
  · rename_i hpc
    simp at hs; subst hs
    exact ⟨xs, tracked_goto h0 s _ xs xs i _ Pc.loop_top ht hpc rfl rfl hq rfl rfl rfl
      (fun _ _ hm => Or.inl hm), fun _ hu => hu, rfl⟩
  · rename_i hpc
    simp at hs; subst hs
    exact ⟨xs, tracked_goto h0 s _ xs xs i _ Pc.dead ht hpc rfl rfl hq rfl rfl rfl
      (fun _ _ hm => Or.inl hm), fun _ hu => hu, rfl⟩
  · simp at hs

/-- Every step keeps the bookkeeping, a push being of a task that is not linked
in the queue; only a push adds a task to the queue or to the pushed tasks. -/
theorem step_tracked (h0 : Heap) (s s1 : Sys) (a : Action) (xs : List Nat)
    (ht : Tracked h0 s xs) (hfresh : ∀ t, a = Action.push t → t ∉ xs)
    (hs : step s a = some s1) :
    ∃ xs1, Tracked h0 s1 xs1 ∧ (∀ u ∈ xs1, u ∈ xs ∨ a = Action.push u) ∧
      (pushed_of s1.log = pushed_of s.log ∨
        ∃ t, a = Action.push t ∧ pushed_of s1.log = pushed_of s.log ++ [t]) := by
  cases a with
  | push t =>
    simp only [step] at hs
    by_cases hh : (s.mem t).handler = none
    · have hp : task_queue_push s.pool.task_queue s.mem t = some (-1, s.pool.task_queue, s.mem) := by
        simp [task_queue_push, hh]
      rw [hp] at hs
      simp at hs; subst hs
      exact ⟨xs, ht, fun u hu => Or.inl hu, Or.inl rfl⟩
    · obtain ⟨tq, tm, th, tb, tc, tf⟩ := ht
      obtain ⟨q1, h1, hp, hq1, hsame, _⟩ := holds_push _ _ xs t tq (hfresh t rfl) hh
      rw [hp] at hs
      simp at hs; subst hs
      refine ⟨xs ++ [t], ⟨hq1, ?_, ?_, ?_, ?_, ?_⟩, ?_, Or.inr ⟨t, rfl, ?_⟩⟩
      · intro x; simp only; rw [hsame, tm]
      · intro u hu
        simp only [pushed_of_append, pushed_of, List.mem_append, List.mem_singleton] at hu
        rcases hu with hu | rfl
        · exact th u hu
        · rw [← tm u]; exact hh
      · simp only [pushed_of_append, pushed_of, returned_of_append, returned_of,
          List.append_nil, ← Multiset.coe_add]
        rw [tb]; abel
      · simpa [called_of_append, called_of, returned_of_append, returned_of] using tc
      · intro u g hm
        simp only [List.mem_append, List.mem_singleton] at hm
        rcases hm with hm | hm
        · exact tf u g hm
        · cases hm
      · intro u hu
        simp only [List.mem_append, List.mem_singleton] at hu
        rcases hu with hu | rfl
        · exact Or.inl hu
        · exact Or.inr rfl
      · simp [pushed_of_append, pushed_of]
  | worker i =>
    simp only [step] at hs
    obtain ⟨xs1, ht1, hsub, hpush⟩ := thread_do_tracked h0 s s1 xs i ht hs
    exact ⟨xs1, ht1, fun u hu => Or.inl (hsub u hu), Or.inl hpush⟩
  | stop =>
    simp only [step] at hs
    simp at hs; subst hs
    exact ⟨xs, ht, fun u hu => Or.inl hu, Or.inl rfl⟩
  | post_all =>
    simp only [step] at hs
    simp at hs; subst hs
    obtain ⟨tq, tm, th, tb, tc, tf⟩ := ht
    exact ⟨xs, ⟨holds_has_tasks _ _ _ _ tq, tm, th, tb, tc, tf⟩, fun u hu => Or.inl hu,
      Or.inl rfl⟩
  | keepalive_on =>
    simp only [step] at hs
    simp at hs; subst hs
    exact ⟨xs, ht, fun u hu => Or.inl hu, Or.inl rfl⟩
  | hold_on =>
    simp only [step] at hs
    simp at hs; subst hs
    exact ⟨xs, ht, fun u hu => Or.inl hu, Or.inl rfl⟩
  | hold_off =>
    simp only [step] at hs
    simp at hs; subst hs
    exact ⟨xs, ht, fun u hu => Or.inl hu, Or.inl rfl⟩

/-- A run whose pushes are of pairwise distinct tasks, none linked in the queue
at the start, keeps the bookkeeping; the tasks it records as pushed are among
its pushes, in order. -/
theorem run_tracked (h0 : Heap) :
    ∀ (acts : List Action) (s s1 : Sys) (xs : List Nat), Tracked h0 s xs →
      (push_args acts).Nodup → (∀ t ∈ push_args acts, t ∉ xs) → run acts s = some s1 →
      ∃ xs1, Tracked h0 s1 xs1 ∧
        List.Sublist (pushed_of s1.log) (pushed_of s.log ++ push_args acts) := by
  intro acts
  induction acts with
  | nil =>
    intro s s1 xs ht _ _ hr
    simp [run] at hr; subst hr
    exact ⟨xs, ht, by simp [push_args]⟩
  | cons a acts ih =>
    intro s s1 xs ht hnd hfresh hr
    simp only [run] at hr
    split at hr
    · simp at hr
    · rename_i s2 hs
      have hargs : (∃ t, a = Action.push t ∧ push_args (a :: acts) = t :: push_args acts) ∨
          ((∀ t, a ≠ Action.push t) ∧ push_args (a :: acts) = push_args acts) := by
        cases a <;> simp [push_args]
      obtain ⟨xs2, ht2, hsub, hpush⟩ := step_tracked h0 s s2 a xs ht
        (by
          intro t e
          apply hfresh
          subst e
          simp [push_args]) hs
      rcases hargs with ⟨t, rfl, hpa⟩ | ⟨hnp, hpa⟩
      · rw [hpa] at hnd hfresh ⊢
        simp only [List.nodup_cons, List.mem_cons, forall_eq_or_imp] at hnd hfresh
        obtain ⟨xs1, ht1, hsl⟩ := ih s2 s1 xs2 ht2 hnd.2
          (by
            intro u hu hm
            rcases hsub u hm with h1 | h1
            · exact hfresh.2 u hu h1
            · cases h1; exact hnd.1 hu) hr
        refine ⟨xs1, ht1, hsl.trans ?_⟩
        rcases hpush with e | ⟨u, hu, e⟩
        · rw [e]
          exact List.Sublist.append_left (List.sublist_cons_self _ _) _
        · cases hu
          rw [e]
          simp
      · rw [hpa] at hnd hfresh ⊢
        obtain ⟨xs1, ht1, hsl⟩ := ih s2 s1 xs2 ht2 hnd
          (by
            intro u hu hm
            rcases hsub u hm with h1 | h1
            · exact hfresh u hu h1
            · exact hnp u h1) hr
        refine ⟨xs1, ht1, ?_⟩
        rcases hpush with e | ⟨u, hu, _⟩
        · rw [← e]; exact hsl
        · exact absurd hu (hnp u)

theorem spawned_tracked (n : Int) (h0 : Heap) : Tracked h0 (spawned n h0) [] := by
  refine ⟨by simp [Holds, queued, spawned], fun _ => rfl, by simp [spawned, pushed_of], ?_, ?_,
    by simp [spawned]⟩
  · simp [spawned, pushed_of, returned_of, held, holding]
  · simp [spawned, called_of, returned_of, executing, inside]

theorem idle_of_not_working :
    ∀ l : List Pc, (l.map is_working).sum = 0 → held l = 0 ∧ executing l = 0
  | [] => by simp [held, executing]
  | a :: l => by
    intro h
    simp only [List.map_cons, List.sum_cons] at h
    obtain ⟨ih1, ih2⟩ := idle_of_not_working l (by omega)
    have ha : is_working a = 0 := by omega
    have : holding a = [] ∧ inside a = [] := by
      cases a <;> simp [is_working] at ha <;> simp [holding, inside]
    simp only [held, executing] at ih1 ih2 ⊢
    simp [this.1, this.2, ih1, ih2]

theorem pull_sane (q q1 : task_queue) (h : Heap) (p : Option Nat) (hq : Sane q)
    (hp : task_queue_pull q h = some (p, q1)) : Sane q1 := by
  obtain ⟨h0, hz⟩ := hq
  unfold task_queue_pull at hp
  simp only at hp
  split at hp
  · simp at hp; rw [← hp.2]; exact ⟨h0, hz⟩
  · split at hp
    · simp at hp; rw [← hp.2]; simp [Sane]
    · split at hp
      · simp at hp
      · simp at hp; rw [← hp.2]
        constructor
        · simp only; omega
        · intro e; simp only at e; omega

theorem push_sane (q q1 : task_queue) (h h1 : Heap) (t : Nat) (r : Int) (hq : Sane q)
    (hp : task_queue_push q h t = some (r, q1, h1)) : Sane q1 := by
  obtain ⟨h0, hz⟩ := hq
  unfold task_queue_push at hp
  split at hp
  · simp at hp; rw [← hp.2.1]; exact ⟨h0, hz⟩
  · simp only at hp
    split at hp
    · simp at hp; rw [← hp.2.1]
      constructor
      · simp only; omega
      · intro e; simp only at e; omega
    · split at hp
      · simp at hp
      · simp at hp; rw [← hp.2.1]
        constructor
        · simp only; omega
        · intro e; simp only at e; omega

theorem step_sane (s s1 : Sys) (a : Action) (hq : Sane s.pool.task_queue)
    (hs : step s a = some s1) : Sane s1.pool.task_queue := by
  cases a with
  | push t =>
    simp only [step] at hs
    split at hs
    · simp at hs
    · rename_i r q1 h1 hp
      simp at hs; subst hs
      exact push_sane _ _ _ _ _ _ hq hp
  | worker i =>
    simp only [step] at hs
    obtain ⟨_, _, _, _, _, _, hcase⟩ := thread_do_counters s s1 i hs
    rcases hcase with e | ⟨b, e⟩ | ⟨p, e⟩
    · rw [e]; exact hq
    · rw [e]; exact hq
    · exact pull_sane _ _ _ _ hq e
  | stop =>
    simp only [step] at hs
    simp at hs; subst hs
    exact hq
  | post_all =>
    simp only [step] at hs
    simp at hs; subst hs
    exact hq
  | keepalive_on =>
    simp only [step] at hs
    simp at hs; subst hs
    exact hq
  | hold_on =>
    simp only [step] at hs
    simp at hs; subst hs
    exact hq
  | hold_off =>
    simp only [step] at hs
    simp at hs; subst hs
    exact hq

theorem run_sane :
    ∀ (acts : List Action) (s s1 : Sys), Sane s.pool.task_queue → run acts s = some s1 →
      Sane s1.pool.task_queue := by
  intro acts
  induction acts with
  | nil =>
    intro s s1 hq hr
    simp [run] at hr; subst hr
    exact hq
  | cons a acts ih =>
    intro s s1 hq hr
    simp only [run] at hr
    split at hr
    · simp at hr
    · rename_i s2 hs
      exact ih s2 s1 (step_sane s s2 a hq hs) hr

/-! ## Exactly-once execution and quiescence -/

/-- C2, as stated, fails: with one worker, task 1 pushed twice and then task 2
(three pushes that return 0), the worker pulls task 1, task 2 and then `NULL`;
the pool is then in a state with `len = 0` and `num_threads_working = 0` in
which two handler calls have completed. -/
theorem repeated_push_loses_an_invocation :
    (run dup_acts (spawned 1 heap0)).map (fun s => (s.pool.task_queue.len,
      s.pool.num_threads_working, s.pool.threads, pushed_of s.log, called_of s.log,
      returned_of s.log)) = some (0, 0, [Pc.loop_top], [1, 1, 2], [1, 2], [1, 2]) :=
  rfl

/-- C2, amended: in every state the pool of `thpool_init(n)` reaches by pushes
of pairwise distinct tasks and worker steps (for every thread count, and also
with the steps of `thpool_destroy` and the writes of the flags in between) in
which `task_queue.len` and `num_threads_working` are 0, the handler returns
recorded are as many as the successful pushes; the tasks passed to a handler,
and those whose handler returned, are the successfully pushed tasks, each
exactly once; and each such call is a call of the handler of the task. -/
theorem exactly_once_at_quiescence (n : Int) (h0 : Heap) (acts : List Action) (s : Sys)
    (hrun : run acts (spawned n h0) = some s) (hd : (push_args acts).Nodup)
    (hlen : s.pool.task_queue.len = 0) (hw : s.pool.num_threads_working = 0) :
    (returned_of s.log).length = (pushed_of s.log).length ∧
    (called_of s.log).Perm (pushed_of s.log) ∧
    (returned_of s.log).Perm (pushed_of s.log) ∧
    (pushed_of s.log).Nodup ∧
    (∀ t ∈ pushed_of s.log, (called_of s.log).count t = 1 ∧ (returned_of s.log).count t = 1) ∧
    (∀ t f, Event.call t f ∈ s.log → (h0 t).handler = some f) := by
  obtain ⟨xs, ⟨tq, _, _, tb, tc, tf⟩, hsl⟩ :=
    run_tracked h0 acts _ s [] (spawned_tracked n h0) hd (by simp) hrun
  obtain ⟨⟨cw, _⟩, _⟩ := run_counted acts _ s (spawned_counted n h0) hrun
  have hxs : xs = [] := ((holds_shape _ _ xs tq).2.1).mp hlen
  obtain ⟨hh, he⟩ := idle_of_not_working s.pool.threads (by omega)
  subst hxs
  rw [hh] at tb
  rw [he] at tc
  simp only [add_zero, Multiset.coe_nil] at tb tc
  have pr : (returned_of s.log).Perm (pushed_of s.log) := (Multiset.coe_eq_coe.mp tb).symm
  have pc : (called_of s.log).Perm (pushed_of s.log) := (Multiset.coe_eq_coe.mp tc).trans pr
  have hnd : (pushed_of s.log).Nodup := by
    have : List.Sublist (pushed_of s.log) (push_args acts) := by
      simpa [spawned, pushed_of] using hsl
    exact this.nodup hd
  refine ⟨pr.length_eq, pc, pr, hnd, ?_, tf⟩
  intro t ht
  rw [pc.count_eq, pr.count_eq]
  exact ⟨List.count_eq_one_of_mem hnd ht, List.count_eq_one_of_mem hnd ht⟩

/-- Witness of C2 (amended): one worker, one task pushed and run to completion. -/
theorem exactly_once_at_quiescence_witness :
    ∃ s, run cycle_acts (spawned 1 heap0) = some s ∧
      s.log = [Event.pushed 3, Event.call 3 7, Event.ret 3, Event.freed 3] ∧
      (returned_of s.log).length = (pushed_of s.log).length ∧
      (called_of s.log).Perm (pushed_of s.log) ∧
      (returned_of s.log).Perm (pushed_of s.log) ∧
      (pushed_of s.log).Nodup ∧
      (∀ t ∈ pushed_of s.log, (called_of s.log).count t = 1 ∧ (returned_of s.log).count t = 1) ∧
      (∀ t f, Event.call t f ∈ s.log → (heap0 t).handler = some f) :=
  ⟨_, rfl, by decide,
    exactly_once_at_quiescence 1 heap0 cycle_acts _ rfl (by decide) (by decide) (by decide)⟩

/-- C3: `thpool_wait` returns only from a state with `task_queue.len = 0` and
`num_threads_working = 0` (and does return from such a state); in every state
the pool can reach, a worker that has pulled a task and not yet freed it
(task obtained, handler executing, or before `free`) is counted in
`num_threads_working`, which is then at least 1; so `thpool_wait` does not
return while a worker is there, while `len` is not 0, or while `front` is not
`NULL`. -/
theorem wait_returns_only_when_quiescent (n : Int) (h0 : Heap) (s : Sys)
    (hr : Reachable n h0 s) :
    (∀ s1, thpool_wait s = some s1 →
      s.pool.task_queue.len = 0 ∧ s.pool.num_threads_working = 0) ∧
    (s.pool.task_queue.len = 0 → s.pool.num_threads_working = 0 → thpool_wait s = some s) ∧
    (∀ (i t : Nat), (s.pool.threads[i]? = some (Pc.got (some t)) ∨ s.pool.threads[i]? = some (Pc.run t) ∨
        s.pool.threads[i]? = some (Pc.free t)) →
      1 ≤ s.pool.num_threads_working ∧ thpool_wait s = none) ∧
    (s.pool.task_queue.len ≠ 0 → thpool_wait s = none) ∧
    (s.pool.task_queue.front ≠ none → thpool_wait s = none) := by
  obtain ⟨acts, hrun⟩ := hr
  obtain ⟨⟨cw, _⟩, _⟩ := run_counted acts _ s (spawned_counted n h0) hrun
  refine ⟨?_, ?_, ?_, ?_, ?_⟩
  · intro s1 hw
    unfold thpool_wait at hw
    split at hw
    · simp at hw
    · rename_i hc
      simp only [not_or, not_not] at hc
      exact hc
  · intro h1 h2
    simp [thpool_wait, h1, h2]
  · intro i t hpc
    have h1 : 1 ≤ (s.pool.threads.map is_working).sum := by
      rcases hpc with hpc | hpc | hpc
      · simpa [is_working] using le_sum_map is_working _ i _ hpc
      · simpa [is_working] using le_sum_map is_working _ i _ hpc
      · simpa [is_working] using le_sum_map is_working _ i _ hpc
    have h2 : 1 ≤ s.pool.num_threads_working := by omega
    refine ⟨h2, ?_⟩
    unfold thpool_wait
    rw [if_pos]
    right; omega
  · intro hne
    simp [thpool_wait, hne]
  · intro hf
    have hsane := run_sane acts _ s (by simp [Sane, spawned]) hrun
    have hne : s.pool.task_queue.len ≠ 0 := fun e => hf (hsane.2 e).1
    simp [thpool_wait, hne]

/-- Witness of C3: with worker 0 inside the handler of task 3, `thpool_wait`
does not return. -/
theorem wait_returns_only_when_quiescent_witness :
    ∃ s, run busy_acts (spawned 2 heap0) = some s ∧
      s.pool.threads = [Pc.run 3, Pc.start] ∧ s.pool.task_queue.len = 0 ∧
      1 ≤ s.pool.num_threads_working ∧ thpool_wait s = none :=
  ⟨_, rfl, by decide, by decide,
    (wait_returns_only_when_quiescent 2 heap0 _ ⟨busy_acts, rfl⟩).2.2.1 0 3
      (Or.inr (Or.inl rfl))⟩

/-! ## No lost wake-up -/

theorem pull_awake (q q1 : task_queue) (h : Heap) (p : Option Nat)
    (hp : task_queue_pull q h = some (p, q1)) :
    (q.len = 0 ∧ q1 = q) ∨ (q.len ≠ 0 ∧ (q1.len = 0 ∨ q1.has_tasks.v = 1)) := by
  unfold task_queue_pull at hp
  simp only at hp
  split at hp
  · rename_i h0
    simp at hp; exact Or.inl ⟨h0, hp.2.symm⟩
  · rename_i h0
    split at hp
    · simp at hp; rw [← hp.2]; exact Or.inr ⟨h0, Or.inl rfl⟩
    · split at hp
      · simp at hp
      · simp at hp; rw [← hp.2]; exact Or.inr ⟨h0, Or.inr rfl⟩

theorem push_awake (q q1 : task_queue) (h h1 : Heap) (t : Nat) (r : Int)
    (hp : task_queue_push q h t = some (r, q1, h1)) : q1 = q ∨ q1.has_tasks.v = 1 := by
  unfold task_queue_push at hp
  split at hp
  · simp at hp; exact Or.inl hp.2.1.symm
  · simp only at hp
    split at hp
    · simp at hp; rw [← hp.2.1]; exact Or.inr rfl
    · split at hp
      · simp at hp
      · simp at hp; rw [← hp.2.1]; exact Or.inr rfl

/-- A sum of at least 1 has a summand of at least 1. -/
theorem exists_of_one_le_sum (f : Pc → Nat) :
    ∀ l : List Pc, 1 ≤ (l.map f).sum → ∃ (i : Nat) (a : Pc), l[i]? = some a ∧ 1 ≤ f a
  | [], hl => by simp at hl
  | a :: l, hl => by
    simp only [List.map_cons, List.sum_cons] at hl
    by_cases ha : 1 ≤ f a
    · exact ⟨0, a, by simp, ha⟩
    · obtain ⟨i, b, hb, hfb⟩ := exists_of_one_le_sum f l (by omega)
      exact ⟨i + 1, b, by simpa using hb, hfb⟩

/-- A worker step keeps `Awake` when afterwards the queue is empty, or the
semaphore is at 1, or the worker is woken, or the step leaves the queue alone
and the worker was not woken before. -/
theorem awake_goto (s s1 : Sys) (i : Nat) (pc pc1 : Pc) (hinv : Awake s)
    (hpc : s.pool.threads[i]? = some pc) (hth : s1.pool.threads = s.pool.threads.set i pc1)
    (hcase : s1.pool.task_queue.len ≤ 0 ∨ s1.pool.task_queue.has_tasks.v = 1 ∨
      is_woken pc1 = 1 ∨ (s1.pool.task_queue = s.pool.task_queue ∧ is_woken pc = 0)) :
    Awake s1 := by
  have k := sum_map_set is_woken s.pool.threads i pc pc1 hpc
  have kle := le_sum_map is_woken s.pool.threads i pc hpc
  intro hlen
  rw [hth]
  rcases hcase with h1 | h1 | h1 | ⟨h1, h2⟩
  · omega
  · exact Or.inl h1
  · right; omega
  · rw [h1] at hlen ⊢
    rcases hinv hlen with h3 | h3
    · exact Or.inl h3
    · right; omega

/-- While the keep-alive flag is set, a worker step keeps `Awake` and the flag. -/
theorem thread_do_awake (s s1 : Sys) (i : Nat) (hka : s.threads_keepalive ≠ 0)
    (hinv : Awake s) (hs : thread_do s i = some s1) :
    Awake s1 ∧ s1.threads_keepalive = s.threads_keepalive := by
  unfold thread_do at hs
  split at hs
  · simp at hs
  · rename_i hpc
    simp at hs; subst hs
    exact ⟨awake_goto s _ i _ Pc.loop_top hinv hpc rfl (Or.inr (Or.inr (Or.inr ⟨rfl, rfl⟩))), rfl⟩
  · rename_i hpc
    split at hs
    · simp at hs; subst hs
      exact ⟨awake_goto s _ i _ Pc.wait hinv hpc rfl (Or.inr (Or.inr (Or.inr ⟨rfl, rfl⟩))), rfl⟩
    · rename_i hk
      exact absurd hka hk
  · rename_i hpc
    split at hs
    · simp at hs
    · simp at hs; subst hs
      exact ⟨awake_goto s _ i _ Pc.woke hinv hpc rfl (Or.inr (Or.inr (Or.inl rfl))), rfl⟩
  · rename_i hpc
    split at hs
    · simp at hs; subst hs
      exact ⟨awake_goto s _ i _ Pc.count hinv hpc rfl (Or.inr (Or.inr (Or.inl rfl))), rfl⟩
    · rename_i hk
      exact absurd hka hk
  · rename_i hpc
    simp at hs; subst hs
    exact ⟨awake_goto s _ i _ Pc.pull hinv hpc rfl (Or.inr (Or.inr (Or.inl rfl))), rfl⟩
  · rename_i hpc
    split at hs
    · simp at hs
    · rename_i p q1 hpull
      simp at hs; subst hs
      refine ⟨awake_goto s _ i _ (Pc.got p) hinv hpc rfl ?_, rfl⟩
      rcases pull_awake _ _ _ _ hpull with ⟨h0, _⟩ | ⟨_, h1 | h1⟩
      · left
        have := (pull_awake _ _ _ _ hpull)
        rcases this with ⟨_, e⟩ | ⟨hne, _⟩
        · simp only [goto]; rw [e]; omega
        · exact absurd h0 hne
      · left; simp only [goto]; omega
      · right; left; exact h1
  · rename_i hpc
    simp at hs; subst hs
    exact ⟨awake_goto s _ i _ Pc.uncount hinv hpc rfl (Or.inr (Or.inr (Or.inr ⟨rfl, rfl⟩))), rfl⟩
  · rename_i hpc
    split at hs <;> simp at hs <;> subst hs
    · exact ⟨awake_goto s _ i _ (Pc.run _) hinv hpc rfl (Or.inr (Or.inr (Or.inr ⟨rfl, rfl⟩))),
        rfl⟩
    · exact ⟨awake_goto s _ i _ (Pc.free _) hinv hpc rfl (Or.inr (Or.inr (Or.inr ⟨rfl, rfl⟩))),
        rfl⟩
  · rename_i hpc
    simp at hs; subst hs
    exact ⟨awake_goto s _ i _ (Pc.free _) hinv hpc rfl (Or.inr (Or.inr (Or.inr ⟨rfl, rfl⟩))), rfl⟩
  · rename_i hpc
    simp at hs; subst hs
    exact ⟨awake_goto s _ i _ Pc.uncount hinv hpc rfl (Or.inr (Or.inr (Or.inr ⟨rfl, rfl⟩))), rfl⟩
  · rename_i hpc
    simp at hs; subst hs
    exact ⟨awake_goto s _ i _ Pc.loop_top hinv hpc rfl (Or.inr (Or.inr (Or.inr ⟨rfl, rfl⟩))), rfl⟩
  · rename_i hpc
    simp at hs; subst hs
    exact ⟨awake_goto s _ i _ Pc.dead hinv hpc rfl (Or.inr (Or.inr (Or.inr ⟨rfl, rfl⟩))), rfl⟩
  · simp at hs

/-- While the keep-alive flag is set, every step other than the clearing of
the flag keeps `Awake` and the flag. -/
theorem step_awake (s s1 : Sys) (a : Action) (hka : s.threads_keepalive ≠ 0)
    (ha : a ≠ Action.stop) (hinv : Awake s) (hs : step s a = some s1) :
    Awake s1 ∧ s1.threads_keepalive ≠ 0 := by
  cases a with
  | push t =>
    simp only [step] at hs
    split at hs
    · simp at hs
    · rename_i r q1 h1 hp
      simp at hs; subst hs
      refine ⟨?_, hka⟩
      rcases push_awake _ _ _ _ _ _ hp with e | e
      · intro hlen
        simp only at hlen ⊢
        rw [e] at hlen ⊢
        exact hinv hlen
      · intro _
        exact Or.inl e
  | worker i =>
    simp only [step] at hs
    obtain ⟨h1, h2⟩ := thread_do_awake s s1 i hka hinv hs
    exact ⟨h1, by rw [h2]; exact hka⟩
  | stop => exact absurd rfl ha
  | post_all =>
    simp only [step] at hs
    simp at hs; subst hs
    exact ⟨fun _ => Or.inl rfl, hka⟩
  | keepalive_on =>
    simp only [step] at hs
    simp at hs; subst hs
    exact ⟨hinv, by simp⟩
  | hold_on =>
    simp only [step] at hs
    simp at hs; subst hs
    exact ⟨hinv, hka⟩
  | hold_off =>
    simp only [step] at hs
    simp at hs; subst hs
    exact ⟨hinv, hka⟩

theorem run_awake :
    ∀ (acts : List Action) (s s1 : Sys), s.threads_keepalive ≠ 0 → Action.stop ∉ acts →
      Awake s → run acts s = some s1 → Awake s1 ∧ s1.threads_keepalive ≠ 0 := by
  intro acts
  induction acts with
  | nil =>
    intro s s1 hka _ hinv hr
    simp [run] at hr; subst hr
    exact ⟨hinv, hka⟩
  | cons a acts ih =>
    intro s s1 hka hstop hinv hr
    simp only [run] at hr
    simp only [List.mem_cons, not_or] at hstop
    split at hr
    · simp at hr
    · rename_i s2 hs
      obtain ⟨h1, h2⟩ := step_awake s s2 a hka (fun e => hstop.1 e.symm) hinv hs
      exact ih s2 s1 h2 hstop.2 h1 hr

/-- C14: in every state the pool reaches by pushes and worker steps with the
keep-alive flag set throughout (no `thpool_destroy` clears it, and the queue
is not cleared), when the
queue length is positive the semaphore value is 1 or some worker has returned
from `bsem_wait` and not yet done its pull; so a queue with `len > 0` never
goes with a semaphore that is not at 1 and every worker inside `bsem_wait`. -/
theorem no_lost_wakeup (n : Int) (h0 : Heap) (acts : List Action) (s : Sys)
    (hrun : run acts (spawned n h0) = some s) (hstop : Action.stop ∉ acts)
    (hlen : 0 < s.pool.task_queue.len) :
    (s.pool.task_queue.has_tasks.v = 1 ∨
      ∃ i : Nat, s.pool.threads[i]? = some Pc.woke ∨ s.pool.threads[i]? = some Pc.count ∨
        s.pool.threads[i]? = some Pc.pull) ∧
    ¬ (s.pool.task_queue.has_tasks.v ≠ 1 ∧
      ∀ (i : Nat) (pc : Pc), s.pool.threads[i]? = some pc → pc = Pc.wait) := by
  have hinv0 : Awake (spawned n h0) := by
    intro hl; simp [spawned] at hl
  obtain ⟨hinv, _⟩ := run_awake acts _ s (by simp [spawned]) hstop hinv0 hrun
  have key : s.pool.task_queue.has_tasks.v = 1 ∨
      ∃ i : Nat, s.pool.threads[i]? = some Pc.woke ∨ s.pool.threads[i]? = some Pc.count ∨
        s.pool.threads[i]? = some Pc.pull := by
    rcases hinv hlen with h1 | h1
    · exact Or.inl h1
    · right
      obtain ⟨i, pc, hpc, hw⟩ := exists_of_one_le_sum is_woken _ h1
      refine ⟨i, ?_⟩
      cases pc <;> simp [is_woken] at hw
      · exact Or.inl hpc
      · exact Or.inr (Or.inl hpc)
      · exact Or.inr (Or.inr hpc)
  refine ⟨key, ?_⟩
  rintro ⟨hv, hall⟩
  rcases key with h1 | ⟨i, h1 | h1 | h1⟩
  · exact hv h1
  · exact absurd (hall i _ h1) (by simp)
  · exact absurd (hall i _ h1) (by simp)
  · exact absurd (hall i _ h1) (by simp)

/-- Witness of C14: task 3 is queued and the semaphore is consumed, worker 0
having returned from `bsem_wait`. -/
theorem no_lost_wakeup_witness :
    ∃ s, run wake_acts (spawned 1 heap0) = some s ∧
      s.pool.task_queue.len = 1 ∧ s.pool.task_queue.has_tasks.v = 0 ∧
      s.pool.threads = [Pc.woke] ∧
      (s.pool.task_queue.has_tasks.v = 1 ∨
        ∃ i : Nat, s.pool.threads[i]? = some Pc.woke ∨ s.pool.threads[i]? = some Pc.count ∨
          s.pool.threads[i]? = some Pc.pull) :=
  ⟨_, rfl, by decide, by decide, by decide,
    (no_lost_wakeup 1 heap0 wake_acts _ rfl (by decide) (by decide)).1⟩

/-! ## The keep-alive flag in the worker loop -/

/-- A step of worker `i` moves only that worker, leaves the keep-alive flag
alone, and leads where the control flow of `thread_do` allows. -/
theorem thread_do_flow (s s1 : Sys) (i : Nat) (hs : thread_do s i = some s1) :
    ∃ pc pc1, s.pool.threads[i]? = some pc ∧ s1.pool.threads = s.pool.threads.set i pc1 ∧
      s1.threads_keepalive = s.threads_keepalive ∧ came_from (pc, s.threads_keepalive) pc1 := by
  unfold thread_do at hs
  split at hs
  · simp at hs
  · rename_i hpc
    simp at hs; subst hs
    exact ⟨_, Pc.loop_top, hpc, rfl, rfl, by simp [came_from]⟩
  · rename_i hpc
    split at hs <;> simp at hs <;> subst hs
    · exact ⟨_, Pc.wait, hpc, rfl, rfl, by simp [came_from]⟩
    · exact ⟨_, Pc.leave, hpc, rfl, rfl, by simp [came_from]⟩
  · rename_i hpc
    split at hs
    · simp at hs
    · simp at hs; subst hs
      exact ⟨_, Pc.woke, hpc, rfl, rfl, by simp [came_from]⟩
  · rename_i hpc
    split at hs
    · rename_i hk
      simp at hs; subst hs
      exact ⟨_, Pc.count, hpc, rfl, rfl, by simpa [came_from] using hk⟩
    · simp at hs; subst hs
      exact ⟨_, Pc.loop_top, hpc, rfl, rfl, by simp [came_from]⟩
  · rename_i hpc
    simp at hs; subst hs
    exact ⟨_, Pc.pull, hpc, rfl, rfl, by simp [came_from]⟩
  · rename_i hpc
    split at hs
    · simp at hs
    · simp at hs; subst hs
      exact ⟨_, Pc.got _, hpc, rfl, rfl, by simp [came_from]⟩
  · rename_i hpc
    simp at hs; subst hs
    exact ⟨_, Pc.uncount, hpc, rfl, rfl, by simp [came_from]⟩
  · rename_i hpc
    split at hs <;> simp at hs <;> subst hs
    · exact ⟨_, Pc.run _, hpc, rfl, rfl, by simp [came_from]⟩
    · exact ⟨_, Pc.free _, hpc, rfl, rfl, by simp [came_from]⟩
  · rename_i hpc
    simp at hs; subst hs
    exact ⟨_, Pc.free _, hpc, rfl, rfl, by simp [came_from]⟩
  · rename_i hpc
    simp at hs; subst hs
    exact ⟨_, Pc.uncount, hpc, rfl, rfl, by simp [came_from]⟩
  · rename_i hpc
    simp at hs; subst hs
    exact ⟨_, Pc.loop_top, hpc, rfl, rfl, by simp [came_from]⟩
  · rename_i hpc
    simp at hs; subst hs
    exact ⟨_, Pc.dead, hpc, rfl, rfl, by simp [came_from]⟩
  · simp at hs

/-- A step that is not a step of worker `i` leaves worker `i` where it stands. -/
theorem step_other (s s1 : Sys) (a : Action) (i : Nat) (ha : a ≠ Action.worker i)
    (hs : step s a = some s1) : s1.pool.threads[i]? = s.pool.threads[i]? := by
  cases a with
  | push t =>
    simp only [step] at hs
    split at hs
    · simp at hs
    · simp at hs; subst hs; rfl
  | worker j =>
    simp only [step] at hs
    obtain ⟨_, pc1, _, hth, _⟩ := thread_do_flow s s1 j hs
    rw [hth]
    exact List.getElem?_set_ne (fun e => ha (by rw [e]))
  | stop =>
    simp only [step] at hs
    simp at hs; subst hs; rfl
  | post_all =>
    simp only [step] at hs
    simp at hs; subst hs; rfl
  | keepalive_on =>
    simp only [step] at hs
    simp at hs; subst hs; rfl
  | hold_on =>
    simp only [step] at hs
    simp at hs; subst hs; rfl
  | hold_off =>
    simp only [step] at hs
    simp at hs; subst hs; rfl

/-- Once the keep-alive flag is 0, only the assignment `threads_keepalive = 1` of
a `thpool_init` sets it again. -/
theorem step_stopped (s s1 : Sys) (a : Action) (hka : s.threads_keepalive = 0)
    (ha : a ≠ Action.keepalive_on) (hs : step s a = some s1) : s1.threads_keepalive = 0 := by
  cases a with
  | push t =>
    simp only [step] at hs
    split at hs
    · simp at hs
    · simp at hs; subst hs; exact hka
  | worker j =>
    simp only [step] at hs
    obtain ⟨_, _, _, _, hk, _⟩ := thread_do_flow s s1 j hs
    rw [hk]; exact hka
  | stop =>
    simp only [step] at hs
    simp at hs; subst hs; rfl
  | post_all =>
    simp only [step] at hs
    simp at hs; subst hs; exact hka
  | keepalive_on => exact absurd rfl ha
  | hold_on =>
    simp only [step] at hs
    simp at hs; subst hs; exact hka
  | hold_off =>
    simp only [step] at hs
    simp at hs; subst hs; exact hka

theorem getElem?_set_same (l : List Pc) (i : Nat) (pc pc1 : Pc) (hl : l[i]? = some pc) :
    (l.set i pc1)[i]? = some pc1 := by
  obtain ⟨hlt, _⟩ := List.getElem?_eq_some.mp hl
  exact List.getElem?_set_self hlt

/-- The steps of a worker standing at `pc` form a chain from `pc`. -/
theorem history_chained (i : Nat) :
    ∀ (acts : List Action) (s : Sys) (pc : Pc), s.pool.threads[i]? = some pc →
      chained pc (history i acts s) := by
  intro acts
  induction acts with
  | nil => intro s pc _; simp [history, chained]
  | cons a acts ih =>
    intro s pc hpc
    simp only [history]
    cases hs : step s a with
    | none => simp [chained]
    | some s1 =>
      simp only
      by_cases ha : a = Action.worker i
      · subst ha
        simp only [step] at hs
        obtain ⟨pc0, pc1, hpc0, hth, _, hcf⟩ := thread_do_flow s s1 i hs
        rw [hpc] at hpc0
        cases hpc0
        have h1 : s1.pool.threads[i]? = some pc1 := by
          rw [hth]; exact getElem?_set_same _ _ _ _ hpc
        simp only [hpc, if_true, List.singleton_append, chained]
        exact ⟨trivial, pc1, hcf, ih s1 pc1 h1⟩
      · have h1 : s1.pool.threads[i]? = some pc := by
          rw [step_other s s1 a i ha hs]; exact hpc
        have hnil : (match a, s.pool.threads[i]? with
            | Action.worker j, some pc => if j = i then [(pc, s.threads_keepalive)] else []
            | _, _ => []) = [] := by
          cases a with
          | worker j =>
            have hji : j ≠ i := fun e => ha (by rw [e])
            simp [hpc, hji]
          | push t => rfl
          | stop => rfl
          | post_all => rfl
          | keepalive_on => rfl
          | hold_on => rfl
          | hold_off => rfl
        rw [hnil]
        exact ih s1 pc h1

/-- In a chain, the step before a step is one that led to where that step was
taken. -/
theorem chained_before :
    ∀ (pre : List (Pc × Int)) (pc : Pc) (x : Pc × Int) (post : List (Pc × Int)),
      chained pc (pre ++ x :: post) → pre ≠ [] →
      ∃ pre1 y, pre = pre1 ++ [y] ∧ came_from y x.1
  | [], _, _, _, _, hne => absurd rfl hne
  | [a], pc, x, post, hc, _ => by
    simp only [List.singleton_append, chained] at hc
    obtain ⟨_, pc1, hcf, hx, _⟩ := hc
    exact ⟨[], a, rfl, by rw [hx]; exact hcf⟩
  | a :: b :: pre, pc, x, post, hc, _ => by
    simp only [List.cons_append, chained] at hc
    obtain ⟨_, pc1, _, hrest⟩ := hc
    have hrest2 : chained pc1 ((b :: pre) ++ x :: post) := by
      simpa [chained] using hrest
    obtain ⟨pre1, y, hpre, hy⟩ := chained_before (b :: pre) pc1 x post hrest2 (by simp)
    exact ⟨a :: pre1, y, by rw [hpre]; rfl, hy⟩

theorem chained_first (pc : Pc) (x : Pc × Int) (post : List (Pc × Int))
    (hc : chained pc (x :: post)) : x.1 = pc := by
  simp only [chained] at hc
  exact hc.1

/-- In the steps of a worker from its start, a step not taken at the start has
a step before it, which led to where it was taken. -/
theorem chained_start_before (pre : List (Pc × Int)) (x : Pc × Int) (post : List (Pc × Int))
    (hc : chained Pc.start (pre ++ x :: post)) (hx : x.1 ≠ Pc.start) :
    ∃ pre1 y, pre = pre1 ++ [y] ∧ came_from y x.1 := by
  cases pre with
  | nil => exact absurd (chained_first _ _ _ hc) hx
  | cons a pre => exact chained_before (a :: pre) _ x post hc (by simp)

/-- In the steps of a worker from its start: a pull comes right after the
`num_threads_working++` that comes right after a keep-alive check that found
the flag set; the step on a pulled task comes right after that pull; and the
keep-alive check after the wait comes right after a return from `bsem_wait`. -/
theorem chained_preceded (pre : List (Pc × Int)) (x : Pc × Int) (post : List (Pc × Int))
    (hc : chained Pc.start (pre ++ x :: post)) :
    (x.1 = Pc.pull →
      ∃ pre1 k1 k2, pre = pre1 ++ [(Pc.woke, k1), (Pc.count, k2)] ∧ k1 ≠ 0) ∧
    (∀ t, x.1 = Pc.got (some t) →
      ∃ pre1 k1 k2 k3, pre = pre1 ++ [(Pc.woke, k1), (Pc.count, k2), (Pc.pull, k3)] ∧ k1 ≠ 0) ∧
    (x.1 = Pc.woke → ∃ pre1 k, pre = pre1 ++ [(Pc.wait, k)]) := by
  have pull_case : ∀ (pre : List (Pc × Int)) (x : Pc × Int) (post : List (Pc × Int)),
      chained Pc.start (pre ++ x :: post) → x.1 = Pc.pull →
      ∃ pre1 k1 k2, pre = pre1 ++ [(Pc.woke, k1), (Pc.count, k2)] ∧ k1 ≠ 0 := by
    intro pre x post hc hx
    obtain ⟨pre1, y, hpre, hy⟩ := chained_start_before pre x post hc (by rw [hx]; simp)
    rw [hx] at hy
    simp only [came_from] at hy
    subst hpre
    have hc2 : chained Pc.start (pre1 ++ y :: (x :: post)) := by simpa using hc
    obtain ⟨pre2, z, hpre2, hz⟩ := chained_start_before pre1 y _ hc2 (by rw [hy]; simp)
    rw [hy] at hz
    simp only [came_from] at hz
    subst hpre2
    refine ⟨pre2, z.2, y.2, ?_, hz.2⟩
    have ez : z = (Pc.woke, z.2) := by rw [← hz.1]
    have ey : y = (Pc.count, y.2) := by rw [← hy]
    rw [← ez, ← ey]
    simp
  refine ⟨pull_case pre x post hc, ?_, ?_⟩
  · intro t hx
    obtain ⟨pre1, y, hpre, hy⟩ := chained_start_before pre x post hc (by rw [hx]; simp)
    rw [hx] at hy
    simp only [came_from] at hy
    subst hpre
    have hc2 : chained Pc.start (pre1 ++ y :: (x :: post)) := by simpa using hc
    obtain ⟨pre2, k1, k2, hpre2, hk⟩ := pull_case pre1 y _ hc2 hy
    subst hpre2
    refine ⟨pre2, k1, k2, y.2, ?_, hk⟩
    have ey : y = (Pc.pull, y.2) := by rw [← hy]
    rw [← ey]
    simp
  · intro hx
    obtain ⟨pre1, y, hpre, hy⟩ := chained_start_before pre x post hc (by rw [hx]; simp)
    rw [hx] at hy
    simp only [came_from] at hy
    refine ⟨pre1, y.2, ?_⟩
    have ey : y = (Pc.wait, y.2) := by rw [← hy]
    rw [← ey]
    exact hpre

/-- A worker that does not exist takes no step. -/
theorem history_none (i : Nat) :
    ∀ (acts : List Action) (s : Sys), s.pool.threads[i]? = none → history i acts s = [] := by
  intro acts
  induction acts with
  | nil => intro s _; rfl
  | cons a acts ih =>
    intro s hpc
    simp only [history]
    cases hs : step s a with
    | none => rfl
    | some s1 =>
      simp only
      by_cases ha : a = Action.worker i
      · subst ha
        simp [step, thread_do, hpc] at hs
      · have h1 : s1.pool.threads[i]? = none := by
          rw [step_other s s1 a i ha hs]; exact hpc
        rw [ih s1 h1]
        cases a <;> simp [hpc]

/-- Once the keep-alive flag is 0, and as long as no `thpool_init` sets it
again, the steps of a worker that has returned from `bsem_wait`, whatever the
others do in between, are the first steps of: the keep-alive check after the
wait, the check at the top of the loop, and `num_threads_alive--`. -/
theorem history_stop (i : Nat) :
    ∀ (acts : List Action) (s : Sys) (pc : Pc), s.threads_keepalive = 0 →
      Action.keepalive_on ∉ acts → s.pool.threads[i]? = some pc →
      (pc = Pc.woke ∨ pc = Pc.loop_top ∨ pc = Pc.leave ∨ pc = Pc.dead) →
      ∃ rest, history i acts s ++ rest = stop_trail pc := by
  intro acts
  induction acts with
  | nil => intro s pc _ _ _ _; exact ⟨stop_trail pc, rfl⟩
  | cons a acts ih =>
    intro s pc hka hquiet hpc hcase
    simp only [List.mem_cons, not_or] at hquiet
    simp only [history]
    cases hs : step s a with
    | none => exact ⟨stop_trail pc, rfl⟩
    | some s1 =>
      simp only
      have hka1 := step_stopped s s1 a hka (fun e => hquiet.1 e.symm) hs
      by_cases ha : a = Action.worker i
      · subst ha
        rcases hcase with e | e | e | e <;> subst e
        · simp [step, thread_do, hpc, hka] at hs
          subst hs
          obtain ⟨rest, hr⟩ := ih _ Pc.loop_top hka1 hquiet.2
            (by simp only [goto]; exact getElem?_set_same _ _ _ _ hpc) (Or.inr (Or.inl rfl))
          exact ⟨rest, by simp [hpc, hka, stop_trail] at hr ⊢; exact hr⟩
        · simp [step, thread_do, hpc, hka] at hs
          subst hs
          obtain ⟨rest, hr⟩ := ih _ Pc.leave hka1 hquiet.2
            (by simp only [goto]; exact getElem?_set_same _ _ _ _ hpc) (Or.inr (Or.inr (Or.inl rfl)))
          exact ⟨rest, by simp [hpc, hka, stop_trail] at hr ⊢; exact hr⟩
        · simp [step, thread_do, hpc] at hs
          subst hs
          obtain ⟨rest, hr⟩ := ih _ Pc.dead hka1 hquiet.2
            (by simp only [goto]; exact getElem?_set_same _ _ _ _ hpc) (Or.inr (Or.inr (Or.inr rfl)))
          exact ⟨rest, by simp [hpc, hka, stop_trail] at hr ⊢; exact hr⟩
        · simp [step, thread_do, hpc] at hs
      · have h1 : s1.pool.threads[i]? = some pc := by
          rw [step_other s s1 a i ha hs]; exact hpc
        have hnil : (match a, s.pool.threads[i]? with
            | Action.worker j, some pc => if j = i then [(pc, s.threads_keepalive)] else []
            | _, _ => []) = [] := by
          cases a with
          | worker j =>
            have hji : j ≠ i := fun e => ha (by rw [e])
            simp [hpc, hji]
          | push t => rfl
          | stop => rfl
          | post_all => rfl
          | keepalive_on => rfl
          | hold_on => rfl
          | hold_off => rfl
        rw [hnil]
        exact ih s1 pc hka1 hquiet.2 h1 hcase

/-- C13, as stated, fails: worker 0 returns from `bsem_wait` and finds the
keep-alive flag at 0 in the check after the wait; before it reads the flag
again at the top of the loop a `thpool_init` sets it (the flag is shared by
all pools of the process); the worker then does not leave the loop: it is
inside `bsem_wait` again and `num_threads_alive` is still 1. -/
theorem flag_set_again_keeps_the_worker :
    (run stop_acts (spawned 1 heap0)).map
      (fun s => (s.pool.threads, s.threads_keepalive, s.pool.num_threads_alive)) =
      some ([Pc.woke], 0, 1) ∧
    (run revive_acts (spawned 1 heap0)).map
      (fun s => (s.pool.threads, s.threads_keepalive, s.pool.num_threads_alive)) =
      some ([Pc.wait], 1, 1) ∧
    history 0 revive_acts (spawned 1 heap0) =
      [(Pc.start, 1), (Pc.loop_top, 1), (Pc.wait, 0), (Pc.woke, 0), (Pc.loop_top, 1)] :=
  ⟨rfl, rfl, rfl⟩

/-- C13, amended: a worker that has returned from `bsem_wait` and finds the
keep-alive flag at 0 goes back to the top of the loop without touching the
counters, the queue or the trace; its next steps, taken with the flag still at
0, are the check at the top of the loop and `num_threads_alive--`, after which
it has returned, the alive counter one lower, the working counter, the queue,
the memory and the trace as they were; and whatever the others do in between,
as long as no `thpool_init` sets the flag again, these are its only steps.
Also, in every run of the pool, each pull of a worker comes right after its
`num_threads_working++`, itself right after a keep-alive check that found the
flag set, itself right after the return from `bsem_wait`; and the step on a
pulled task (the handler call) comes right after that pull. -/
theorem stop_observed_after_wake (n : Int) (h0 : Heap) (acts acts1 : List Action) (i : Nat)
    (s : Sys) (hpc : s.pool.threads[i]? = some Pc.woke) (hka : s.threads_keepalive = 0) :
    thread_do s i = some (goto s i Pc.loop_top) ∧
    (∃ s3, run [Action.worker i, Action.worker i, Action.worker i] s = some s3 ∧
      s3.pool.threads = s.pool.threads.set i Pc.dead ∧
      s3.pool.num_threads_alive = s.pool.num_threads_alive - 1 ∧
      s3.pool.num_threads_working = s.pool.num_threads_working ∧
      s3.pool.task_queue = s.pool.task_queue ∧ s3.log = s.log ∧ s3.mem = s.mem) ∧
    (Action.keepalive_on ∉ acts1 → ∃ rest, history i acts1 s ++ rest =
      [(Pc.woke, 0), (Pc.loop_top, 0), (Pc.leave, 0)]) ∧
    (∀ pre x post, history i acts (spawned n h0) = pre ++ x :: post →
      (x.1 = Pc.pull →
        ∃ pre1 k1 k2, pre = pre1 ++ [(Pc.woke, k1), (Pc.count, k2)] ∧ k1 ≠ 0) ∧
      (∀ t, x.1 = Pc.got (some t) →
        ∃ pre1 k1 k2 k3,
          pre = pre1 ++ [(Pc.woke, k1), (Pc.count, k2), (Pc.pull, k3)] ∧ k1 ≠ 0) ∧
      (x.1 = Pc.woke → ∃ pre1 k, pre = pre1 ++ [(Pc.wait, k)])) := by
  have hlt : i < s.pool.threads.length := (List.getElem?_eq_some.mp hpc).1
  refine ⟨by simp [thread_do, hpc, hka], ?_,
    fun hquiet => history_stop i acts1 s Pc.woke hka hquiet hpc (Or.inl rfl), ?_⟩
  · refine ⟨{ s with pool :=
        { s.pool with threads := s.pool.threads.set i Pc.dead,
                      num_threads_alive := s.pool.num_threads_alive - 1 } },
      ?_, rfl, rfl, rfl, rfl, rfl, rfl⟩
    simp [run, step, thread_do, goto, hpc, hka, hlt]
  · intro pre x post hh
    cases hi : (spawned n h0).pool.threads[i]? with
    | none =>
      rw [history_none i acts _ hi] at hh
      simp at hh
    | some pc =>
      have hstart : pc = Pc.start := by
        have := List.getElem?_mem hi
        simp [spawned] at this
        exact this.2
      subst hstart
      have hc := history_chained i acts _ Pc.start hi
      rw [hh] at hc
      exact chained_preceded pre x post hc

/-- Witness of C13 (amended): worker 0 returns from `bsem_wait` after
`thpool_destroy` has cleared the keep-alive flag, and leaves, a `thread_hold`
of another thread in between. -/
theorem stop_observed_after_wake_witness :
    ∃ s, run stop_acts (spawned 1 heap0) = some s ∧
      s.pool.threads = [Pc.woke] ∧ s.threads_keepalive = 0 ∧
      thread_do s 0 = some (goto s 0 Pc.loop_top) ∧
      (∃ s3, run [Action.worker 0, Action.worker 0, Action.worker 0] s = some s3 ∧
        s3.pool.threads = s.pool.threads.set 0 Pc.dead ∧
        s3.pool.num_threads_alive = s.pool.num_threads_alive - 1 ∧
        s3.pool.num_threads_working = s.pool.num_threads_working ∧
        s3.pool.task_queue = s.pool.task_queue ∧ s3.log = s.log ∧ s3.mem = s.mem) ∧
      (∃ rest, history 0 [Action.worker 0, Action.hold_on, Action.worker 0, Action.worker 0] s
        ++ rest = [(Pc.woke, 0), (Pc.loop_top, 0), (Pc.leave, 0)]) :=
  have w := stop_observed_after_wake 1 heap0 []
    [Action.worker 0, Action.hold_on, Action.worker 0, Action.worker 0] 0
    ((run stop_acts (spawned 1 heap0)).getD (spawned 1 heap0)) (by decide) (by decide)
  ⟨_, rfl, by decide, by decide, w.1, w.2.1, w.2.2.1 (by decide)⟩

/-! ## Pool initialisation -/

theorem create_threads_all (k : Nat) :
    ∀ n : Nat, create_threads (fun _ => true) k n = List.replicate k Pc.start := by
  induction k with
  | zero => intro n; rfl
  | succ k ih =>
    intro n
    simp [create_threads, thread_init, ih, List.replicate_succ]

/-- With every allocation succeeding, `thpool_init` reaches the end of its
thread-creation loop in the state `spawned`. -/
theorem thpool_init_spawn_ok (n : Int) (h : Heap) :
    thpool_init_spawn n h true true true (fun _ => true) = some (spawned n h) := by
  simp [thpool_init_spawn, task_queue_init, bsem_init, create_threads_all, spawned]

/-- A worker step keeps `Starting`, the two flags and the memory: a worker
inside `bsem_wait` cannot move, the semaphore being at 0. -/
theorem thread_do_starting (s s1 : Sys) (i : Nat) (hst : Starting s)
    (hs : thread_do s i = some s1) :
    Starting s1 ∧ s1.threads_keepalive = s.threads_keepalive ∧
      s1.threads_on_hold = s.threads_on_hold := by
  obtain ⟨hw, hq, hlog, hpcs⟩ := hst
  cases hpc : s.pool.threads[i]? with
  | none => simp [thread_do, hpc] at hs
  | some pc =>
    have hset : ∀ pc1,
        (pc1 = Pc.start ∨ pc1 = Pc.loop_top ∨ pc1 = Pc.wait ∨ pc1 = Pc.leave ∨ pc1 = Pc.dead) →
        ∀ x ∈ s.pool.threads.set i pc1,
          x = Pc.start ∨ x = Pc.loop_top ∨ x = Pc.wait ∨ x = Pc.leave ∨ x = Pc.dead := by
      intro pc1 h1 x hx
      rcases List.mem_or_eq_of_mem_set hx with h2 | h2
      · exact hpcs x h2
      · rw [h2]; exact h1
    rcases hpcs pc (List.getElem?_mem hpc) with e | e | e | e | e <;> subst e
    · simp [thread_do, hpc] at hs
      subst hs
      exact ⟨⟨hw, hq, hlog, hset _ (Or.inr (Or.inl rfl))⟩, rfl, rfl⟩
    · by_cases hk : s.threads_keepalive = 0
      · simp [thread_do, hpc, hk] at hs
        subst hs
        exact ⟨⟨hw, hq, hlog, hset _ (Or.inr (Or.inr (Or.inr (Or.inl rfl))))⟩, rfl, rfl⟩
      · simp [thread_do, hpc, hk] at hs
        subst hs
        exact ⟨⟨hw, hq, hlog, hset _ (Or.inr (Or.inr (Or.inl rfl)))⟩, rfl, rfl⟩
    · simp [thread_do, hpc, hq, bsem_wait] at hs
    · simp [thread_do, hpc] at hs
      subst hs
      exact ⟨⟨hw, hq, hlog, hset _ (Or.inr (Or.inr (Or.inr (Or.inr rfl))))⟩, rfl, rfl⟩
    · simp [thread_do, hpc] at hs

/-- A step taken before `thpool_init` returns keeps `Starting`; only a
`thpool_destroy` clears a set keep-alive flag and only `thread_hold` sets a
clear on-hold flag. -/
theorem step_starting (s s1 : Sys) (a : Action) (hst : Starting s) (ha : init_step a = true)
    (hs : step s a = some s1) :
    Starting s1 ∧ (a ≠ Action.stop → s.threads_keepalive = 1 → s1.threads_keepalive = 1) ∧
      (a ≠ Action.hold_on → s.threads_on_hold = 0 → s1.threads_on_hold = 0) := by
  cases a with
  | push t => simp [init_step] at ha
  | post_all => simp [init_step] at ha
  | worker i =>
    simp only [step] at hs
    obtain ⟨h1, h2, h3⟩ := thread_do_starting s s1 i hst hs
    exact ⟨h1, fun _ hk => by rw [h2]; exact hk, fun _ hk => by rw [h3]; exact hk⟩
  | stop =>
    simp only [step] at hs
    simp at hs; subst hs
    exact ⟨hst, fun hne => absurd rfl hne, fun _ hk => hk⟩
  | keepalive_on =>
    simp only [step] at hs
    simp at hs; subst hs
    exact ⟨hst, fun _ _ => rfl, fun _ hk => hk⟩
  | hold_on =>
    simp only [step] at hs
    simp at hs; subst hs
    exact ⟨hst, fun _ hk => hk, fun hne => absurd rfl hne⟩
  | hold_off =>
    simp only [step] at hs
    simp at hs; subst hs
    exact ⟨hst, fun _ hk => hk, fun _ _ => rfl⟩

theorem run_starting :
    ∀ (acts : List Action) (s s1 : Sys), Starting s → (∀ a ∈ acts, init_step a = true) →
      run acts s = some s1 →
      Starting s1 ∧ (Action.stop ∉ acts → s.threads_keepalive = 1 → s1.threads_keepalive = 1) ∧
        (Action.hold_on ∉ acts → s.threads_on_hold = 0 → s1.threads_on_hold = 0) := by
  intro acts
  induction acts with
  | nil =>
    intro s s1 hst _ hr
    simp [run] at hr; subst hr
    exact ⟨hst, fun _ hk => hk, fun _ hk => hk⟩
  | cons a acts ih =>
    intro s s1 hst hacts hr
    simp only [run] at hr
    split at hr
    · simp at hr
    · rename_i s2 hs
      obtain ⟨h1, h2, h3⟩ := step_starting s s2 a hst (hacts a (by simp)) hs
      obtain ⟨h4, h5, h6⟩ := ih s2 s1 h1 (fun b hb => hacts b (by simp [hb])) hr
      refine ⟨h4, ?_, ?_⟩
      · intro hn hk
        simp only [List.mem_cons, not_or] at hn
        exact h5 hn.2 (h2 (fun e => hn.1 e.symm) hk)
      · intro hn hk
        simp only [List.mem_cons, not_or] at hn
        exact h6 hn.2 (h3 (fun e => hn.1 e.symm) hk)

/-- Workers that have not started can each take their first step, one after
the other; the alive counter then went up by their number. -/
theorem start_workers :
    ∀ (m : Nat) (done : List Pc) (s : Sys),
      s.pool.threads = done ++ List.replicate m Pc.start →
      ∃ s1, run ((List.range' done.length m).map Action.worker) s = some s1 ∧
        s1.pool.num_threads_alive = s.pool.num_threads_alive + m := by
  intro m
  induction m with
  | zero =>
    intro done s _
    exact ⟨s, by simp [run], by simp⟩
  | succ m ih =>
    intro done s hth
    have hpc : s.pool.threads[done.length]? = some Pc.start := by
      rw [hth, List.getElem?_append_right (le_refl _)]
      simp [List.replicate_succ]
    have hs : thread_do s done.length = some (goto { s with pool := { s.pool with
        num_threads_alive := s.pool.num_threads_alive + 1 } } done.length Pc.loop_top) := by
      simp [thread_do, hpc]
    obtain ⟨s1, hr, ha⟩ := ih (done ++ [Pc.loop_top])
      (goto { s with pool := { s.pool with
        num_threads_alive := s.pool.num_threads_alive + 1 } } done.length Pc.loop_top)
      (by
        simp only [goto, hth]
        rw [List.set_append_right _ _ (le_refl _)]
        simp [List.replicate_succ])
    refine ⟨s1, ?_, ?_⟩
    · rw [List.range'_succ]
      simp only [List.map_cons, run, step, hs]
      simpa using hr
    · rw [ha]
      simp only [goto]
      push_cast
      omega

/-- C11, as stated, fails: `thpool_init(1)` has created its worker, which does
its `num_threads_alive += 1`; before `thpool_init` looks at the counter, a
`thpool_destroy` clears the keep-alive flag and a `thread_hold` sets the
on-hold flag (both flags are shared by all pools of the process);
`thpool_init` then returns with `num_threads_alive = 1`, the keep-alive flag
clear and the on-hold flag set. -/
theorem flags_written_before_init_returns :
    (((thpool_init_spawn 1 heap0 true true true (fun _ => true)).bind
      (run [Action.worker 0, Action.stop, Action.hold_on])).bind (thpool_init_return 1)).map
      (fun s => (s.pool.num_threads_alive, s.pool.num_threads_working, s.threads_keepalive,
        s.threads_on_hold)) = some (1, 0, 0, 1) :=
  rfl

/-- C11, amended: with every allocation succeeding, `thpool_init(n)` creates
exactly `max(n, 0)` workers, and it does return once each worker has taken its
first step; whatever the workers do and whatever is written to the two flags
before it returns, when it returns there are `max(n, 0)` workers,
`num_threads_alive` is `max(n, 0)`, `num_threads_working` is 0 and the queue is
empty (`len` 0, `front` and `rear` `NULL`, semaphore at 0); the keep-alive
flag is set unless a `thpool_destroy` cleared it in between, and the on-hold
flag is clear unless a `thread_hold` set it in between; and for negative `n`
it is `thpool_init(0)`, whatever allocations succeed. -/
theorem thpool_init_ready (n : Int) (h : Heap) :
    ∃ s0, thpool_init_spawn n h true true true (fun _ => true) = some s0 ∧
      s0.pool.threads = List.replicate (max n 0).toNat Pc.start ∧
      (∃ (idxs : List Nat) (s2 : Sys), run (idxs.map Action.worker) s0 = some s2 ∧
        thpool_init_return n s2 = some s2) ∧
      (∀ (acts : List Action) (s1 s : Sys), (∀ a ∈ acts, init_step a = true) →
        run acts s0 = some s1 → thpool_init_return n s1 = some s →
        s.pool.threads.length = (max n 0).toNat ∧
        s.pool.num_threads_alive = max n 0 ∧
        s.pool.num_threads_working = 0 ∧
        s.pool.task_queue.len = 0 ∧ s.pool.task_queue.front = none ∧
        s.pool.task_queue.rear = none ∧ s.pool.task_queue.has_tasks.v = 0 ∧
        (Action.stop ∉ acts → s.threads_keepalive = 1) ∧
        (Action.hold_on ∉ acts → s.threads_on_hold = 0)) ∧
      (n < 0 → (∀ a b c f, thpool_init_spawn n h a b c f = thpool_init_spawn 0 h a b c f) ∧
        ∀ s2, thpool_init_return n s2 = thpool_init_return 0 s2) := by
  have hclamp : (if n < 0 then 0 else n) = max n 0 := by
    split <;> omega
  refine ⟨spawned n h, thpool_init_spawn_ok n h, by simp [spawned, hclamp], ?_, ?_, ?_⟩
  · obtain ⟨s2, hr2, ha2⟩ := start_workers (max n 0).toNat [] (spawned n h)
      (by simp [spawned, hclamp])
    have ha3 : s2.pool.num_threads_alive = max n 0 := by
      rw [ha2]
      simp only [spawned]
      omega
    refine ⟨List.range' 0 (max n 0).toNat, s2, by simpa using hr2, ?_⟩
    simp [thpool_init_return, hclamp, ha3]
  · intro acts s1 s hacts hrun hret
    have hst0 : Starting (spawned n h) := by
      refine ⟨rfl, rfl, rfl, ?_⟩
      intro pc hpc
      simp [spawned] at hpc
      exact Or.inl hpc.2
    obtain ⟨⟨hw, hq, _, _⟩, hka, hoh⟩ := run_starting acts _ s1 hst0 hacts hrun
    obtain ⟨_, hlen⟩ := run_counted _ _ s1 (spawned_counted n h) hrun
    have hs : s = s1 ∧ s1.pool.num_threads_alive = max n 0 := by
      simp only [thpool_init_return, hclamp] at hret
      split at hret
      · simp at hret
      · rename_i ha
        simp only [not_not] at ha
        simp at hret
        exact ⟨hret.symm, ha⟩
    obtain ⟨rfl, halive⟩ := hs
    refine ⟨?_, halive, hw, by rw [hq], by rw [hq], by rw [hq], by rw [hq],
      fun hn => hka hn rfl, fun hn => hoh hn rfl⟩
    rw [hlen]; simp [spawned, hclamp]
  · intro hn
    constructor
    · intro a b c f
      simp [thpool_init_spawn, hn]
    · intro s2
      simp [thpool_init_return, hn]

/-- Witness of C11 (amended): `thpool_init(2)`; both workers start, a
`thpool_resume` clears the on-hold flag and worker 0 reaches `bsem_wait`
before `thpool_init` returns. -/
theorem thpool_init_ready_witness :
    ∃ s, run [Action.worker 0, Action.worker 1, Action.hold_off, Action.worker 0]
        (spawned 2 heap0) = some s ∧
      thpool_init_return 2 s = some s ∧
      s.pool.threads = [Pc.wait, Pc.loop_top] ∧
      s.pool.threads.length = 2 ∧
      s.pool.num_threads_alive = 2 ∧
      s.pool.num_threads_working = 0 ∧
      s.pool.task_queue.len = 0 ∧ s.pool.task_queue.front = none ∧
      s.pool.task_queue.rear = none ∧ s.pool.task_queue.has_tasks.v = 0 ∧
      s.threads_keepalive = 1 ∧ s.threads_on_hold = 0 := by
  obtain ⟨s0, hs0, _, _, hall, _⟩ := thpool_init_ready 2 heap0
  have e : s0 = spawned 2 heap0 := by
    rw [thpool_init_spawn_ok] at hs0
    exact (Option.some.inj hs0).symm
  subst e
  have w := hall [Action.worker 0, Action.worker 1, Action.hold_off, Action.worker 0]
    ((run [Action.worker 0, Action.worker 1, Action.hold_off, Action.worker 0]
      (spawned 2 heap0)).getD (spawned 2 heap0))
    ((run [Action.worker 0, Action.worker 1, Action.hold_off, Action.worker 0]
      (spawned 2 heap0)).getD (spawned 2 heap0))
    (by decide) rfl rfl
  exact ⟨_, rfl, rfl, by decide, w.1, w.2.1, w.2.2.1, w.2.2.2.1, w.2.2.2.2.1, w.2.2.2.2.2.1,
    w.2.2.2.2.2.2.1, w.2.2.2.2.2.2.2.1 (by decide), w.2.2.2.2.2.2.2.2 (by decide)⟩

/-! ## Destroying the pool -/

theorem destroy_poll_done :
    ∀ (sched : List (List Action)) (s s1 : Sys), destroy_poll sched s = some s1 →
      s1.pool.num_threads_alive = 0 := by
  intro sched
  induction sched with
  | nil =>
    intro s s1 hd
    simp only [destroy_poll] at hd
    split at hd
    · simp at hd
    · rename_i ha
      simp only [not_not] at ha
      simp at hd; subst hd
      exact ha
  | cons acts sched ih =>
    intro s s1 hd
    simp only [destroy_poll] at hd
    split at hd
    · simp at hd
    · rename_i s2 hr
      split at hd
      · exact ih _ s1 hd
      · rename_i ha
        simp only [not_not] at ha
        simp at hd; subst hd
        exact ha

/-- On a pool, `thpool_destroy` returns only with no worker alive and the queue
empty. -/
theorem thpool_destroy_pool (sched : List (List Action)) (s s1 : Sys)
    (hd : thpool_destroy (some ()) sched s = some s1) :
    s1.pool.num_threads_alive = 0 ∧ s1.pool.task_queue.len = 0 ∧
      s1.pool.task_queue.front = none ∧ s1.pool.task_queue.rear = none := by
  simp only [thpool_destroy] at hd
  split at hd
  · simp at hd
  · rename_i s2 hp
    have ha := destroy_poll_done sched _ s2 hp
    split at hd
    · simp at hd
    · rename_i q log hq
      simp at hd; subst hd
      simp only [task_queue_destroy, task_queue_clear] at hq
      split at hq
      · simp at hq
      · split at hq
        · simp at hq
        · simp at hq
          obtain ⟨hq1, _⟩ := hq
          subst hq1
          exact ⟨ha, rfl, rfl, rfl⟩

/-- C12: `thpool_destroy` with a `NULL` handle returns at once, whatever the
other threads would do, and the state is the one before the call: the
keep-alive flag, the semaphore, the queue, the counters, the workers and the
trace are untouched, so every step of a worker or producer is what it was. -/
theorem thpool_destroy_null_is_noop (sched : List (List Action)) (s : Sys) :
    thpool_destroy none sched s = some s ∧
    (∀ s1, thpool_destroy none sched s = some s1 →
      s1.threads_keepalive = s.threads_keepalive ∧ s1.threads_on_hold = s.threads_on_hold ∧
      s1.pool.task_queue = s.pool.task_queue ∧
      s1.pool.task_queue.has_tasks.v = s.pool.task_queue.has_tasks.v ∧
      s1.pool.num_threads_alive = s.pool.num_threads_alive ∧
      s1.pool.num_threads_working = s.pool.num_threads_working ∧
      s1.pool.threads = s.pool.threads ∧ s1.log = s.log ∧ s1.mem = s.mem ∧
      ∀ a, step s1 a = step s a) := by
  refine ⟨rfl, ?_⟩
  intro s1 hd
  simp only [thpool_destroy] at hd
  cases hd
  exact ⟨rfl, rfl, rfl, rfl, rfl, rfl, rfl, rfl, rfl, fun _ => rfl⟩

/-- On the pool of one worker inside `bsem_wait`, with the schedule
`destroy_sched`, `thpool_destroy` returns: the flag is cleared, the worker has
left, and the pushed task 3 was pulled and freed by the clearing of the queue,
its handler not called. -/
theorem thpool_destroy_pool_run :
    ((run [Action.worker 0, Action.worker 0] (spawned 1 heap0)).bind
      (thpool_destroy (some ()) destroy_sched)).map
      (fun s => (s.threads_keepalive, s.pool.threads, s.pool.num_threads_alive,
        s.pool.task_queue.len, s.log)) =
    some (0, [Pc.dead], 0, 0, [Event.pushed 3, Event.pulled (some 3), Event.freed 3]) :=
  rfl

end Thpool
